import Mathlib

/-!
# Verification of the batch-translation core of `Translator/base.py`

This file shallowly embeds the concurrent batch-translation pipeline of the
repository (partitioning, response parsing, reconciliation, worker loop,
checkpointing, rate limiting, finalization) as executable Lean definitions and
proves (or refutes) the frozen specification claims about it.

Python strings are modelled as `List Char` (`PyStr`).  Python `str.strip`,
`str.split`, dictionary insertion/lookup and the one regular expression used by
the response parser are given faithful executable models below; each model
carries a comment naming the Python construct it embeds.
-/

set_option maxHeartbeats 1000000

namespace WuWaVH

/-- Python `str` modelled as a list of characters. -/
abbrev PyStr := List Char

/-- The whitespace characters stripped by Python `str.strip()` (the ASCII
subset; input lines of this program are read as text and contain no exotic
unicode whitespace that would behave differently). -/
def isPySpace (c : Char) : Bool :=
  c = ' ' || c = '\t' || c = '\n' || c = '\r' || c = '\x0b' || c = '\x0c'

/-- Python `str.strip()`: drop leading and trailing whitespace. -/
def pyStrip (s : PyStr) : PyStr :=
  ((s.dropWhile isPySpace).reverse.dropWhile isPySpace).reverse

/-- The delimiter `':::'` of the translation file format. -/
def tripleColon : PyStr := [':', ':', ':']

/-- Find the first occurrence of the (nonempty) separator `sep` inside `s`,
returning the part before it and the part after it.  This is the search
underlying Python `str.split(sep)` / `sep in s`. -/
def findSub (sep : PyStr) : PyStr → Option (PyStr × PyStr)
  | [] => if sep = [] then some ([], []) else none
  | c :: t =>
    if sep.isPrefixOf (c :: t) then some ([], (c :: t).drop sep.length)
    else match findSub sep t with
         | none => none
         | some (b, a) => some (c :: b, a)

/-- Python `sep in s` (substring containment, for nonempty `sep`). -/
def hasSub (sep s : PyStr) : Bool := (findSub sep s).isSome

/-- Python `s.split(sep)` for a nonempty separator, with explicit fuel.
With `fuel = s.length` the fuel never runs out (each step removes at least
`sep.length ≥ 1` characters). -/
def pySplitAux (sep : PyStr) : Nat → PyStr → List PyStr
  | 0, s => [s]
  | fuel + 1, s =>
    match findSub sep s with
    | none => [s]
    | some (b, a) => b :: pySplitAux sep fuel a

/-- Python `s.split(sep)` (full split on a nonempty separator). -/
def pySplit (sep s : PyStr) : List PyStr := pySplitAux sep s.length s

/-- Python `s.split(sep, 1)` (split at the first occurrence only). -/
def pySplit1 (sep s : PyStr) : List PyStr :=
  match findSub sep s with
  | none => [s]
  | some (b, a) => [b, a]

/-- Python `s.split('\n')` (split on the newline character; every piece is
newline-free and a trailing newline yields a trailing empty piece). -/
def splitNL : PyStr → List PyStr
  | [] => [[]]
  | c :: t =>
    if c = '\n' then [] :: splitNL t
    else
      match splitNL t with
      | [] => [[c]]
      | p :: ps => (c :: p) :: ps

/-! ## Translation Mapping (Python `dict`) -/

/-- The per-batch `translated_map` Python dictionary, as an association list.
Insertion overwrites the value of an existing key in place and otherwise
appends, matching `dict.__setitem__`. -/
abbrev TransMap := List (PyStr × PyStr)

/-- Python dict assignment `translated_map[k] = v`. -/
def dinsert (m : TransMap) (k v : PyStr) : TransMap :=
  match m with
  | [] => [(k, v)]
  | (k0, v0) :: rest => if k0 = k then (k, v) :: rest else (k0, v0) :: dinsert rest k v

/-- Python dict lookup `translated_map.get(k)` (`None` when absent). -/
def dlookup (m : TransMap) (k : PyStr) : Option PyStr :=
  match m with
  | [] => none
  | (k0, v0) :: rest => if k0 = k then some v0 else dlookup rest k

/-! ## Response Parser (`base.py` lines 165–176) -/

/-- The separator character class of the fallback regular expression
`[|:>.)\]]` in `base.py` line 174.  Note that it contains `')'`. -/
def seps : List Char := ['|', ':', '>', '.', ')', ']']

/-- The fallback pattern `re.match(r"^(\d+)\s*(?:[|:>.)\]])\s*(.*)", line)`
of `base.py` line 174, returning `(group(1), group(2))` on a match.

Because no digit and no whitespace character belongs to the separator class,
the regex engine's backtracking can never shorten the greedy `\d+` and `\s*`
runs into a successful match that the maximal runs miss, so the match succeeds
exactly when, after the maximal leading digit run (nonempty) and the maximal
following whitespace run, the next character is one of the separators;
`group(2)` is the rest of the line after the separator with the maximal
whitespace run dropped (`.` matches everything here since split lines contain
no newline). -/
def fallbackMatch (line : PyStr) : Option (PyStr × PyStr) :=
  let d := line.takeWhile Char.isDigit
  let rest1 := line.dropWhile Char.isDigit
  if d = [] then none
  else
    match rest1.dropWhile isPySpace with
    | [] => none
    | c :: rest3 =>
      if c ∈ seps then some (d, rest3.dropWhile isPySpace) else none

/-- One iteration of the response-parsing loop (`base.py` lines 167–176):
a line containing `':::'` is split at the first occurrence and inserted as
`(strip(left), strip(right))`; otherwise the fallback pattern is tried and a
match inserts `(group(1), strip(group(2)))`; all other lines are discarded. -/
def parseLine (m : TransMap) (line : PyStr) : TransMap :=
  if hasSub tripleColon line then
    let parts := pySplit1 tripleColon line
    dinsert m (pyStrip (parts.headD [])) (pyStrip (parts.getD 1 []))
  else
    match fallbackMatch line with
    | some (t_id, t_text) => dinsert m t_id (pyStrip t_text)
    | none => m

/-- The Response Parser (`base.py` line 165–176): split the accumulated
response text into physical lines with `full_content.strip().split('\n')`
and fold the per-line rule into the Translation Mapping. -/
def parseResponse (full_content : PyStr) : TransMap :=
  (splitNL (pyStrip full_content)).foldl parseLine []

/-! ## Translation Client (`call_api_translate`, `base.py` lines 102–187) -/

/-- Reconciliation of one original batch line against the Translation Mapping
(`base.py` lines 179–182):

    o_id = line.split(':::')[0].strip()
    final_text = translated_map.get(o_id,
                   line.split(':::')[1].strip() if ':::' in line else line)
    results.append(f"{o_id}:::{final_text}")

Note that the fallback default uses element 1 of the FULL split, i.e. the text
between the first and second occurrence of `':::'`. -/
def reconcileLine (m : TransMap) (line : PyStr) : PyStr :=
  let o_id := pyStrip ((pySplit tripleColon line).headD [])
  let final_text :=
    match dlookup m o_id with
    | some t => t
    | none =>
      if hasSub tripleColon line then pyStrip ((pySplit tripleColon line).getD 1 [])
      else line
  o_id ++ tripleColon ++ final_text

/-- The observable outcome of one API call made by `call_api_translate`:
either the Cancellation Flag was already set at entry (`base.py` line 103),
or the HTTP response had a non-200 status (line 134), or an exception was
raised somewhere in the sequence (line 185), or the call succeeded and
accumulated the response text `content` (for a streamed response this is the
concatenation of the deltas read before the stream ended or the Cancellation
Flag interrupted it). -/
inductive ApiOutcome where
  | stoppedAtEntry : ApiOutcome
  | httpError : ApiOutcome
  | exn : ApiOutcome
  | success (content : PyStr) : ApiOutcome
deriving DecidableEq

/-- The function `call_api_translate(batch_lines, settings)` (`base.py` lines 102–187) as a
function of the call outcome.  The three failure outcomes return
`batch_lines` unchanged (lines 103, 137, 187); a success parses the content
and reconciles each original line (lines 165–183).  The Lean function is
total: the embedded code path cannot raise (every raise is modelled by the
`exn` outcome, mirroring the `try`/`except` that wraps the whole body). -/
def call_api_translate (o : ApiOutcome) (batch_lines : List PyStr) : List PyStr :=
  match o with
  | .stoppedAtEntry => batch_lines
  | .httpError => batch_lines
  | .exn => batch_lines
  | .success content => batch_lines.map (reconcileLine (parseResponse content))

/-! ## Partitioner (`MainApp.run_logic`, `base.py` lines 643–650) -/

/-- The slicing loop `for i in range(0, total, chunk_size): chunks.append(data_points[i:i+chunk_size])`
with explicit fuel.  With `chunk_size ≥ 1` and `fuel = l.length` the fuel
never runs out. -/
def chunkListAux (c : Nat) : Nat → List α → List (List α)
  | _, [] => []
  | 0, _ :: _ => []
  | fuel + 1, x :: xs => ((x :: xs).take c) :: chunkListAux c fuel ((x :: xs).drop c)

/-- The Partitioner (`base.py` lines 643–650):

    n_threads = max(1, config_data['threads'])
    chunk_size = math.ceil(total / n_threads)
    chunks = [data_points[i:i+chunk_size] for i in range(0, total, chunk_size)]
    chunks = [c for c in chunks if c]

When `total = 0` we have `chunk_size = 0` and Python's `range(0, 0, 0)` raises
`ValueError: range() arg 3 must not be zero`; this error path is modelled as
`none`. -/
def partitionChunks (threads : Int) (data : List α) : Option (List (List α)) :=
  let total := data.length
  let n := (max 1 threads).toNat
  let chunkSize := (total + n - 1) / n
  if chunkSize = 0 then none
  else some ((chunkListAux chunkSize data.length data).filter (fun c => !c.isEmpty))

/-! ## Worker (`worker_process`, `base.py` lines 189–227) -/

/-- The coordinator's shared state observed by workers: the shared Output
Buffer `shared_output_lines` and the list of Checkpoint Writer snapshots
(the successive full contents written by `save_progress_file`, oldest
first). -/
structure JobState where
  buffer : List PyStr
  checkpoints : List (List PyStr)
deriving DecidableEq

/-- The write-back loop `for idx, result_line in zip(batch_indices, translated_batch):
shared_output_lines[idx] = result_line` (`base.py` lines 220–221). -/
def writeResults (idxs : List Nat) (vals : List PyStr) (buf : List PyStr) : List PyStr :=
  (idxs.zip vals).foldl (fun b p => b.set p.1 p.2) buf

/-- Where, relative to one worker's processing of batch `k`, the Cancellation
Flag (`stop_event`) became set:

* `beforeTop`: before the check at the top of the per-batch loop
  (`base.py` line 207) for batch `k` — the worker stops there;
* `beforeCall`: after that check but before the check at the entry of
  `call_api_translate` (line 103) — batch `k` comes back as the original
  lines and is written; the worker stops at the top of batch `k+1`;
* `midStream p`: while streaming batch `k`'s response (line 143) — the
  reader stops after accumulating the partial content `p`, which is parsed
  and reconciled and the results written; the worker stops at batch `k+1`. -/
inductive CancelPhase where
  | beforeTop : CancelPhase
  | beforeCall : CancelPhase
  | midStream (partialContent : PyStr) : CancelPhase
deriving DecidableEq

/-- Whether the check `if stop_event.is_set()` at the top of the per-batch
loop (`base.py` line 207) sees the flag when batch `b` is about to start,
under cancellation schedule `sched` (the flag is monotone: once set during
batch `k` it is seen by every later top-of-loop check). -/
def stoppedAtTop (sched : Option (Nat × CancelPhase)) (b : Nat) : Bool :=
  match sched with
  | none => false
  | some (k, .beforeTop) => k ≤ b
  | some (k, _) => k < b

/-- The result lines of batch `b` for one worker: the outcome function `f`
gives the API outcome of each batch the worker runs to completion, and the
cancellation schedule overrides batch `k`'s outcome as dictated by the
phase in which the flag was set. -/
def batchResults (f : Nat → ApiOutcome) (sched : Option (Nat × CancelPhase))
    (b : Nat) (lines : List PyStr) : List PyStr :=
  match sched with
  | some (k, .beforeCall) =>
    if b = k then call_api_translate .stoppedAtEntry lines
    else call_api_translate (f b) lines
  | some (k, .midStream p) =>
    if b = k then call_api_translate (.success p) lines
    else call_api_translate (f b) lines
  | _ => call_api_translate (f b) lines

/-- The per-batch loop of `worker_process` (`base.py` lines 206–225): check
the Cancellation Flag, take the next `batch_size` entries of the chunk, call
the Translation Client, write the results into the Output Buffer at the
batch's global indices, and flush a checkpoint.  Fuel makes the recursion
structural; with `batch_size ≥ 1` and `fuel = chunk.length` the fuel never
runs out (a `batch_size` of `0` would make Python's `range` raise, a
configuration no claim concerns). -/
def runWorkerAux (bs : Nat) (f : Nat → ApiOutcome) (sched : Option (Nat × CancelPhase)) :
    Nat → Nat → List (PyStr × Nat) → JobState → JobState
  | _, _, [], st => st
  | 0, _, _ :: _, st => st
  | fuel + 1, b, x :: xs, st =>
    if stoppedAtTop sched b then st
    else
      let chunk := x :: xs
      let batch := chunk.take bs
      let results := batchResults f sched b (batch.map Prod.fst)
      let buf := writeResults (batch.map Prod.snd) results st.buffer
      runWorkerAux bs f sched fuel (b + 1) (chunk.drop bs)
        ⟨buf, st.checkpoints ++ [buf]⟩

/-- One whole worker on its Work Chunk (`worker_process`). -/
def runWorker (bs : Nat) (f : Nat → ApiOutcome) (sched : Option (Nat × CancelPhase))
    (chunk : List (PyStr × Nat)) (st : JobState) : JobState :=
  runWorkerAux bs f sched chunk.length 0 chunk st

/-! ## Checkpoint Writer and finalization (`base.py` lines 95–99, 669–674) -/

/-- The two persisted artifacts: the final output file `tran.txt` and the
checkpoint temp file `temp_translating.txt`; `none` models an absent file
and `some content` a file holding exactly `content`. -/
structure FS where
  output : Option PyStr
  checkpoint : Option PyStr
deriving DecidableEq

/-- The byte content `save_progress_file` writes for a buffer (`base.py`
lines 97–99): every slot followed by one newline, in index order.  The
surrounding `file_write_lock` makes each such write a single whole-file
critical section, which the model captures by treating the write as one
atomic value. -/
def fileContent (buffer : List PyStr) : PyStr :=
  (buffer.map (fun l => l ++ ['\n'])).foldr (· ++ ·) []

/-- The Checkpoint Writer `save_progress_file` (`base.py` lines 95–99):
under the shared write lock, fully rewrite the checkpoint temp file with the
current Output Buffer. -/
def save_progress_file (buffer : List PyStr) (fs : FS) : FS :=
  { fs with checkpoint := some (fileContent buffer) }

/-- The finalization step of the Coordinator (`base.py` lines 671–674):
only when the Cancellation Flag is not set, delete any previous output file
and copy the checkpoint over it.  (`stop_event` is monotone within a job —
it is cleared only when a new job starts — so being set here is the same as
having ever been set during the job.) -/
def finalize (stopSet : Bool) (fs : FS) : FS :=
  if stopSet then fs else { fs with output := fs.checkpoint }

/-! ## Pipeline Coordinator (`MainApp.run_logic`, `base.py` lines 616–674) -/

/-- Eager initialization of one Output Buffer slot (`base.py` lines 630–635):
identifier-bearing lines start as the placeholder built from the stripped
text before the first `':::'`, other lines start as the raw line itself. -/
def initSlot (line : PyStr) : PyStr :=
  if hasSub tripleColon line then
    pyStrip ((pySplit tripleColon line).headD []) ++ tripleColon
  else line

/-- The enumeration loop `for i, line in enumerate(raw[start_off:]):
data_points.append((line, start_off + i))` (`base.py` lines 639–641). -/
def dataPoints (start : Nat) : List PyStr → List (PyStr × Nat)
  | [] => []
  | l :: ls => (l, start) :: dataPoints (start + 1) ls

/-- The aggregate observable result of one job. -/
structure JobResult where
  buffer : List PyStr
  checkpoints : List (List PyStr)
  fs : FS
deriving DecidableEq

/-- One whole job (`MainApp.run_logic`, `base.py` lines 616–674): strip the
raw input lines, detect the optional header (first line starting with
`"0:::"`), eagerly initialize the Output Buffer, enumerate the data-bearing
lines, partition them into chunks, run one worker per chunk, replay the
checkpoint flushes onto the file system, and finalize.

The model runs the workers sequentially, which is observationally faithful
because the workers' index ranges are disjoint (each buffer slot is written
by exactly one worker) and each checkpoint flush snapshots the whole buffer
under the write lock; `f w b` is the API outcome of worker `w`'s batch `b`,
`sched w` is worker `w`'s cancellation schedule and `stopSet` is the state
of the Cancellation Flag when the Coordinator finalizes (an instantiation
is meant to pick `stopSet = true` exactly when some schedule sets the flag
or the flag is set after the workers finish).  A `none` result models the
`ValueError` that `range(0, 0, 0)` raises inside the partitioning step when
there are no data-bearing lines, which aborts the job through the
surrounding `try`/`except` before any worker is spawned. -/
def run_logic (rawInput : List PyStr) (threads : Int) (bs : Nat)
    (f : Nat → Nat → ApiOutcome) (sched : Nat → Option (Nat × CancelPhase))
    (stopSet : Bool) (fs0 : FS) : Option JobResult :=
  let raw := rawInput.map pyStrip
  let has_header : Bool :=
    match raw with
    | [] => false
    | r0 :: _ => ("0:::".toList).isPrefixOf r0
  let buffer0 := raw.map initSlot
  let start_off := if has_header then 1 else 0
  let data_points := dataPoints start_off (raw.drop start_off)
  match partitionChunks threads data_points with
  | none => none
  | some chunks =>
    let st : JobState := (chunks.enum.foldl
      (fun st p => runWorker bs (f p.1) (sched p.1) p.2 st)
      ⟨buffer0, []⟩)
    let fs1 := st.checkpoints.foldl (fun fs snap => save_progress_file snap fs) fs0
    some ⟨st.buffer, st.checkpoints, finalize stopSet fs1⟩

/-! ## Rate Limiter (`wait_for_slot`, `base.py` lines 86–93) -/

/-- The body of `wait_for_slot` (`base.py` lines 89–93) under idealized time
(exact sleeps, an exact monotone clock, modelled over the rationals):
called at clock time `now` with shared timestamp `last`, it sleeps exactly
the missing part of `delay` and then writes the new shared timestamp, which
is the time the slot is granted.  The whole body runs while holding
`request_lock`, so successive executions are serialized; the model
therefore treats it as one atomic step of a fold. -/
def wait_for_slot (delay last now : ℚ) : ℚ :=
  if now - last < delay then last + delay else now

/-- The successive grant timestamps of a serialized sequence of rate-limiter
acquisitions whose clock readings at entry are `ts`. -/
def grantTimes (delay : ℚ) (last : ℚ) : List ℚ → List ℚ
  | [] => []
  | t :: ts => wait_for_slot delay last t :: grantTimes delay (wait_for_slot delay last t) ts

/-- Serialization constraint imposed by `request_lock`: each acquisition
samples the clock no earlier than the timestamp written by the previous
acquisition (the previous holder wrote `last_request_time` and released the
lock before the next holder reads the clock). -/
def serializedCalls (delay last : ℚ) : List ℚ → Prop
  | [] => True
  | t :: ts => last ≤ t ∧ serializedCalls delay (wait_for_slot delay last t) ts

/-! ## Reading back a checkpoint file (specification-side, for C9) -/

/-- Absence of a newline character in a string (every Output Buffer slot
satisfies this, which is what makes the checkpoint format well defined). -/
def noNL (s : PyStr) : Prop := '\n' ∉ s

/-- The list of lines a text file with content `s` contains: the pieces
between newlines, without a phantom empty line after a final newline.  This
is the specification-side reading of the checkpoint file used to state
checkpoint completeness. -/
def linesOf (s : PyStr) : List PyStr :=
  if s = [] then []
  else if s.getLast? = some '\n' then (splitNL s).dropLast
  else splitNL s

/-! ## Specification-side fallback patterns (for C5) -/

/-- The five-character separator set named by the specification sentence
behind C5 (which omits the `')'` that the code's character class contains). -/
def seps5 : List Char := ['|', ':', '>', '.', ']']

/-- The fallback pattern exactly as the claim states it: a leading integer
identifier followed by one separator character drawn from `seps5` and then
free text. -/
def specFallbackClaimed (line : PyStr) : Prop :=
  ∃ d c t, line = d ++ c :: t ∧ d ≠ [] ∧ (∀ x ∈ d, x.isDigit) ∧ c ∈ seps5

/-- The fallback pattern the code actually implements, stated declaratively:
a leading nonempty digit run, optional whitespace, one separator character
from the six-character class `seps` (including `')'`), optional whitespace,
free text. -/
def specFallbackAmended (line : PyStr) : Prop :=
  ∃ d w c t, line = d ++ w ++ c :: t ∧ d ≠ [] ∧ (∀ x ∈ d, x.isDigit = true) ∧
    (∀ x ∈ w, isPySpace x = true) ∧ c ∈ seps

/-! ## Failure outcomes and stream-free schedules (for C4) -/

/-- Outcomes on which `call_api_translate` returns its batch unchanged. -/
def failureOutcome : ApiOutcome → Bool
  | .success _ => false
  | _ => true

/-- Cancellation schedules that do not interrupt a streamed response
mid-flight (a mid-stream interruption is the one cancellation mode that can
still deliver translated content). -/
def noStreamCancel : Option (Nat × CancelPhase) → Bool
  | some (_, .midStream _) => false
  | _ => true

/-- The number of the first batch a worker never runs under a cancellation
at batch `k` in phase `ph`: batch `k` itself when the flag is seen at the
top-of-loop check, batch `k + 1` when it is seen later (the batch in flight
is still completed and written). -/
def stopBound (k : Nat) : CancelPhase → Nat
  | .beforeTop => k
  | _ => k + 1

/-! # Supporting lemmas

## Substring search and split -/

theorem findSub_none_cons {sep : PyStr} {c : Char} {t : PyStr}
    (h : findSub sep (c :: t) = none) : findSub sep t = none := by
  cases hf : findSub sep t with
  | none => rfl
  | some p =>
    exfalso
    rw [findSub, hf] at h
    by_cases hp : sep.isPrefixOf (c :: t) <;> simp [hp] at h

theorem findSub_decomp {sep : PyStr} :
    ∀ {s b a : PyStr}, findSub sep s = some (b, a) → s = b ++ sep ++ a := by
  intro s
  induction s with
  | nil =>
    intro b a h
    rw [findSub] at h
    by_cases hsep : sep = []
    · simp [hsep] at h
      simp [hsep, h.1, h.2]
    · simp [hsep] at h
  | cons c t ih =>
    intro b a h
    rw [findSub] at h
    by_cases hp : sep.isPrefixOf (c :: t)
    · simp only [if_pos hp, Option.some.injEq, Prod.mk.injEq] at h
      obtain ⟨u, hu⟩ := (List.isPrefixOf_iff_prefix.mp hp)
      rw [← h.1, ← h.2, ← hu, List.nil_append, List.drop_left]
    · simp only [if_neg hp] at h
      cases hf : findSub sep t with
      | none => rw [hf] at h; exact absurd h (by simp)
      | some p =>
        obtain ⟨b0, a0⟩ := p
        rw [hf] at h
        simp only [Option.some.injEq, Prod.mk.injEq] at h
        rw [← h.1, ← h.2]
        simpa using congrArg (c :: ·) (ih hf)

theorem findSub_some_length {sep s b a : PyStr} (hsep : sep ≠ [])
    (h : findSub sep s = some (b, a)) : a.length < s.length := by
  have hd := findSub_decomp h
  have : sep.length ≠ 0 := fun hz => hsep (List.eq_nil_of_length_eq_zero hz)
  subst hd
  simp only [List.length_append]
  omega

theorem pySplitAux_congr {sep : PyStr} (hsep : sep ≠ []) :
    ∀ (f1 : Nat) {f2 : Nat} (s : PyStr), s.length ≤ f1 → s.length ≤ f2 →
      pySplitAux sep f1 s = pySplitAux sep f2 s := by
  intro f1
  induction f1 with
  | zero =>
    intro f2 s h1 _
    have hs : s = [] := List.eq_nil_of_length_eq_zero (Nat.le_zero.mp h1)
    subst hs
    cases f2 with
    | zero => rfl
    | succ f2 => simp [pySplitAux, findSub, hsep]
  | succ f ih =>
    intro f2 s h1 h2
    cases f2 with
    | zero =>
      have hs : s = [] := List.eq_nil_of_length_eq_zero (Nat.le_zero.mp h2)
      subst hs
      simp [pySplitAux, findSub, hsep]
    | succ f2 =>
      simp only [pySplitAux]
      cases hf : findSub sep s with
      | none => rfl
      | some p =>
        obtain ⟨b, a⟩ := p
        have hlen := findSub_some_length hsep hf
        exact congrArg (b :: ·) (ih a (by omega) (by omega))

theorem pySplit_cons {sep s b a : PyStr} (hsep : sep ≠ [])
    (h : findSub sep s = some (b, a)) : pySplit sep s = b :: pySplit sep a := by
  have hlen := findSub_some_length hsep h
  unfold pySplit
  cases hs : s.length with
  | zero => omega
  | succ n =>
    simp only [pySplitAux, h]
    exact congrArg (b :: ·) (pySplitAux_congr hsep n a (by omega) (by omega))

theorem pySplit_single {sep s : PyStr} (h : findSub sep s = none) :
    pySplit sep s = [s] := by
  unfold pySplit
  cases s.length with
  | zero => rfl
  | succ n => simp [pySplitAux, h]

theorem hasSub_eq_false_iff {sep s : PyStr} :
    hasSub sep s = false ↔ findSub sep s = none := by
  cases h : findSub sep s <;> simp [hasSub, h]

theorem findSub_triple_nil (t : PyStr) :
    findSub tripleColon (tripleColon ++ t) = some ([], t) := by
  rw [show tripleColon ++ t = ':' :: ':' :: ':' :: t from rfl, findSub]
  simp [List.isPrefixOf, tripleColon]

theorem findSub_triple_exact :
    ∀ (i t : PyStr), hasSub tripleColon i = false → i.getLast? ≠ some ':' →
      findSub tripleColon (i ++ tripleColon ++ t) = some (i, t) := by
  intro i
  induction i with
  | nil => intro t _ _; simpa using findSub_triple_nil t
  | cons c cs ih =>
    intro t h1 h2
    have hcs : hasSub tripleColon cs = false := by
      rw [hasSub_eq_false_iff] at h1 ⊢
      exact findSub_none_cons h1
    have h2cs : cs ≠ [] → cs.getLast? ≠ some ':' := by
      intro hne hcon
      apply h2
      rcases cs with _ | ⟨a, as⟩
      · exact absurd rfl hne
      · rw [List.getLast?_cons_cons]
        exact hcon
    have hstep : findSub tripleColon (cs ++ (tripleColon ++ t)) = some (cs, t) := by
      rcases hcs2 : cs with _ | ⟨c1, cs1⟩
      · simpa using findSub_triple_nil t
      · rw [← hcs2, ← List.append_assoc]
        exact ih t hcs (h2cs (by rw [hcs2]; simp))
    have hnp : tripleColon.isPrefixOf (c :: (cs ++ tripleColon ++ t)) = false := by
      rcases cs with _ | ⟨c1, cs1⟩
      · have hc : c ≠ ':' := by
          intro hcc
          exact h2 (by simp [hcc])
        simp only [List.nil_append]
        rw [show tripleColon ++ t = ':' :: ':' :: ':' :: t from rfl]
        simp [List.isPrefixOf, tripleColon, Ne.symm hc]
      · rcases cs1 with _ | ⟨c2, cs2⟩
        · have hc1 : c1 ≠ ':' := by
            intro hcc
            exact h2 (by simp [hcc, List.getLast?_cons_cons])
          rw [show ([c1] ++ tripleColon ++ t) = c1 :: ':' :: ':' :: ':' :: t from rfl]
          simp [List.isPrefixOf, tripleColon, Ne.symm hc1]
        · by_contra hb
          rw [Bool.not_eq_false] at hb
          rw [show ((c1 :: c2 :: cs2) ++ tripleColon ++ t)
              = c1 :: c2 :: (cs2 ++ tripleColon ++ t) from rfl] at hb
          simp only [tripleColon, List.isPrefixOf, Bool.and_eq_true, beq_iff_eq] at hb
          obtain ⟨e1, e2, e3, _⟩ := hb
          rw [hasSub_eq_false_iff] at h1
          rw [← e1, ← e2, ← e3, findSub] at h1
          simp [List.isPrefixOf] at h1
    rw [show ((c :: cs) ++ tripleColon ++ t) = c :: (cs ++ tripleColon ++ t) from rfl,
      findSub, hnp]
    simp only [List.append_assoc] at *
    simp [hstep]

theorem tripleColon_ne_nil : tripleColon ≠ [] := by simp [tripleColon]

theorem reconcileLine_ne_nil (m : TransMap) (line : PyStr) :
    reconcileLine m line ≠ [] := by
  simp [reconcileLine, tripleColon]

/-! # Claim C1 -/

/-- C1 (counterexample).  The claim states that for a batch line
`{id}:::{text}` whose id is absent from the Translation Mapping, the
reconciled line is identical to the original batch line.  This fails on the
line `"1:::a:::b"` against the empty mapping: the code rebuilds the line as
`f"{o_id}:::{translated_map.get(o_id, line.split(':::')[1].strip())}"`, and
`line.split(':::')[1]` is the text between the FIRST and SECOND occurrence
of `':::'`, so the result is `"1:::a"`, not the original line. -/
theorem claim1_counterexample :
    dlookup [] ("1".toList) = none
    ∧ reconcileLine [] ("1:::a:::b".toList) = "1:::a".toList
    ∧ reconcileLine [] ("1:::a:::b".toList) ≠ "1:::a:::b".toList := by
  refine ⟨by decide, by decide, by decide⟩

theorem pySplit_ne_nil (sep s : PyStr) : pySplit sep s ≠ [] := by
  unfold pySplit
  cases s.length with
  | zero => simp [pySplitAux]
  | succ n =>
    simp only [pySplitAux]
    cases hf : findSub sep s with
    | none => simp
    | some p =>
      obtain ⟨b, a⟩ := p
      simp

/-- C1 (amended).  For every batch line containing `':::'` — written
canonically as `a:::b` where `a` is the text before the FIRST occurrence of
`':::'` in the line and `b` the text after it — whose stripped id
`strip(a)` is absent from the Translation Mapping, the reconciled result
equals `strip(a):::strip(c)`, where `c` is the segment of `b` before any
further `':::'` (all of `b` when `b` contains none); the result is never
the empty string.  In particular the reconciled line is identical to the
original batch line whenever `a` and `b` carry no surrounding whitespace
and `b` contains no `':::'`. -/
theorem claim1_amended (m : TransMap) (line a b : PyStr)
    (hfs : findSub tripleColon line = some (a, b))
    (hmiss : dlookup m (pyStrip a) = none) :
    reconcileLine m line
      = pyStrip a ++ tripleColon ++ pyStrip ((pySplit tripleColon b).headD [])
    ∧ (pyStrip a = a → pyStrip b = b → hasSub tripleColon b = false →
        reconcileLine m line = line)
    ∧ ∀ (m' : TransMap) (line' : PyStr), reconcileLine m' line' ≠ [] := by
  have hd := findSub_decomp hfs
  have hsplit : pySplit tripleColon line = a :: pySplit tripleColon b :=
    pySplit_cons tripleColon_ne_nil hfs
  have hhas : hasSub tripleColon line = true := by
    simp [hasSub, hfs]
  have hgen : reconcileLine m line
      = pyStrip a ++ tripleColon ++ pyStrip ((pySplit tripleColon b).headD []) := by
    cases hb : pySplit tripleColon b with
    | nil => exact absurd hb (pySplit_ne_nil tripleColon b)
    | cons c cs =>
      have hget : (pySplit tripleColon line).getD 1 [] = c := by
        rw [hsplit, hb]
        rfl
      have hhead : (pySplit tripleColon line).headD [] = a := by
        rw [hsplit]
        rfl
      simp only [reconcileLine, hhead, hmiss, if_pos hhas, hget, hb, List.headD_cons]
  refine ⟨hgen, ?_, reconcileLine_ne_nil⟩
  intro ha hbstrip hbno
  rw [hgen, pySplit_single (hasSub_eq_false_iff.mp hbno), List.headD_cons,
    ha, hbstrip]
  exact hd.symm

/-- C1 (witness): the amended statement instantiated at the mapping-miss
line `"1:::Hello"` (canonical decomposition a = `"1"`, b = `"Hello"`) with
the empty mapping. -/
theorem claim1_witness :
    findSub tripleColon ("1:::Hello".toList) = some ("1".toList, "Hello".toList)
    ∧ dlookup [] (pyStrip ("1".toList)) = none
    ∧ reconcileLine [] ("1:::Hello".toList)
      = pyStrip ("1".toList) ++ tripleColon
        ++ pyStrip ((pySplit tripleColon ("Hello".toList)).headD []) :=
  ⟨by decide, by decide,
    (claim1_amended [] ("1:::Hello".toList) ("1".toList) ("Hello".toList)
      (by decide) (by decide)).1⟩

/-! ## Character-class facts and maximal-run decompositions (for C5) -/

theorem takeWhile_all_append (p : Char → Bool) :
    ∀ (l1 l2 : List Char), (∀ x ∈ l1, p x = true) →
      (∀ x, l2.head? = some x → p x = false) →
      (l1 ++ l2).takeWhile p = l1 ∧ (l1 ++ l2).dropWhile p = l2 := by
  intro l1
  induction l1 with
  | nil =>
    intro l2 _ h2
    cases l2 with
    | nil => simp
    | cons c t =>
      have hc := h2 c rfl
      simp [List.takeWhile_cons, List.dropWhile_cons, hc]
  | cons a l1 ih =>
    intro l2 h1 h2
    have ha : p a = true := h1 a (List.mem_cons_self a l1)
    have hrest := ih l2 (fun x hx => h1 x (List.mem_cons_of_mem a hx)) h2
    simp [List.takeWhile_cons, List.dropWhile_cons, ha, hrest.1, hrest.2]

theorem isPySpace_not_digit {c : Char} (h : isPySpace c = true) :
    c.isDigit = false := by
  simp only [isPySpace, Bool.or_eq_true, decide_eq_true_eq] at h
  rcases h with ((((h | h) | h) | h) | h) | h <;> subst h <;> decide

theorem seps_not_digit {c : Char} (h : c ∈ seps) : c.isDigit = false := by
  simp only [seps, List.mem_cons, List.not_mem_nil, or_false] at h
  rcases h with h | h | h | h | h | h <;> subst h <;> decide

theorem seps_not_space {c : Char} (h : c ∈ seps) : isPySpace c = false := by
  simp only [seps, List.mem_cons, List.not_mem_nil, or_false] at h
  rcases h with h | h | h | h | h | h <;> subst h <;> decide

/-! # Claim C5 -/

/-- C5 (counterexample).  The claim states that for a `':::'`-free payload
line, the Response Parser adds an entry if and only if the line matches a
leading integer followed by one separator from the set containing
`|, :, >, ., ]`.  On the line `"1)x"` the parser DOES add the entry
`("1", "x")` — the code's character class `[|:>.)\]]` also contains `')'`
— yet the claimed five-separator pattern does not match, so the stated
equivalence is false. -/
theorem claim5_counterexample :
    parseLine [] ("1)x".toList) = [("1".toList, "x".toList)]
    ∧ ¬ specFallbackClaimed ("1)x".toList) := by
  constructor
  · decide
  · rintro ⟨d, c, t, heq, hdn, hdig, hc⟩
    rw [show ("1)x".toList) = '1' :: ')' :: 'x' :: [] from rfl] at heq
    cases d with
    | nil => exact hdn rfl
    | cons x d2 =>
      rw [List.cons_append] at heq
      injection heq with hx hrest
      cases d2 with
      | nil =>
        rw [List.nil_append] at hrest
        injection hrest with hc2 _
        rw [← hc2] at hc
        exact absurd hc (by decide)
      | cons y d3 =>
        rw [List.cons_append] at hrest
        injection hrest with hy _
        have : y.isDigit = true :=
          hdig y (List.mem_cons_of_mem x (List.mem_cons_self y d3))
        rw [← hy] at this
        exact absurd this (by decide)

/-- C5 (amended).  For every `':::'`-free payload line, the Response Parser
adds an entry if and only if the line consists of a nonempty leading digit
run, optional whitespace, ONE separator character from the six-character
class containing `|, :, >, ., ), ]` (the code's class also admits `')'`,
and whitespace may surround the separator), and free text; on a match the
entry inserted is the digit run mapped to the stripped trailing text, and a
line matching neither rule leaves the Translation Mapping unchanged (it is
discarded silently — the embedding has no error outcome). -/
theorem claim5_amended (m : TransMap) (line : PyStr)
    (h : hasSub tripleColon line = false) :
    ((fallbackMatch line).isSome = true ↔ specFallbackAmended line)
    ∧ (∀ d t, fallbackMatch line = some (d, t) →
        parseLine m line = dinsert m d (pyStrip t))
    ∧ (fallbackMatch line = none → parseLine m line = m) := by
  refine ⟨⟨?_, ?_⟩, ?_, ?_⟩
  · intro hm
    by_cases hdn : line.takeWhile Char.isDigit = []
    · unfold fallbackMatch at hm
      simp [hdn] at hm
    · cases hr2 : (line.dropWhile Char.isDigit).dropWhile isPySpace with
      | nil =>
        unfold fallbackMatch at hm
        simp [hdn, hr2] at hm
      | cons c r3 =>
        by_cases hc : c ∈ seps
        · have hdec : line = line.takeWhile Char.isDigit ++
              ((line.dropWhile Char.isDigit).takeWhile isPySpace ++ c :: r3) := by
            rw [← hr2, List.takeWhile_append_dropWhile, List.takeWhile_append_dropWhile]
          rw [← List.append_assoc] at hdec
          exact ⟨line.takeWhile Char.isDigit,
            (line.dropWhile Char.isDigit).takeWhile isPySpace, c, r3,
            hdec, hdn,
            fun x hx => by simpa using List.mem_takeWhile_imp hx,
            fun x hx => by simpa using List.mem_takeWhile_imp hx, hc⟩
        · exfalso
          unfold fallbackMatch at hm
          simp [hdn, hr2, hc] at hm
  · rintro ⟨d, w, c, t, hline, hdn, hdig, hsp, hc⟩
    have h1 := takeWhile_all_append Char.isDigit d (w ++ c :: t) hdig (by
      intro x hx
      cases w with
      | nil =>
        simp only [List.nil_append, List.head?_cons, Option.some.injEq] at hx
        rw [← hx]
        exact seps_not_digit hc
      | cons w0 ws =>
        simp only [List.cons_append, List.head?_cons, Option.some.injEq] at hx
        rw [← hx]
        exact isPySpace_not_digit (hsp w0 (List.mem_cons_self w0 ws)))
    have h2 := takeWhile_all_append isPySpace w (c :: t) hsp (by
      intro x hx
      simp only [List.head?_cons, Option.some.injEq] at hx
      rw [← hx]
      exact seps_not_space hc)
    have hdn2 : d ≠ [] := hdn
    rw [hline]
    unfold fallbackMatch
    rw [List.append_assoc, h1.1, h1.2]
    simp [h2.2, hdn2, hc]
  · intro d t hm
    simp [parseLine, h, hm]
  · intro hm
    simp [parseLine, h, hm]

/-- C5 (witness): the amended statement instantiated at the parser-accepted
line `"12| ok"` (digit run, separator bar, surrounding whitespace) with the
empty mapping. -/
theorem claim5_witness :
    hasSub tripleColon ("12| ok".toList) = false
    ∧ ((fallbackMatch ("12| ok".toList)).isSome = true
        ↔ specFallbackAmended ("12| ok".toList)) :=
  ⟨by decide, (claim5_amended [] ("12| ok".toList) (by decide)).1⟩

/-! ## Chunking lemmas (for C2) -/

theorem chunkListAux_flatten {α : Type} {c : Nat} (hc : 1 ≤ c) :
    ∀ (fuel : Nat) (l : List α), l.length ≤ fuel →
      (chunkListAux c fuel l).flatten = l := by
  intro fuel
  induction fuel with
  | zero =>
    intro l hl
    rw [List.eq_nil_of_length_eq_zero (Nat.le_zero.mp hl)]
    rfl
  | succ fuel ih =>
    intro l hl
    cases l with
    | nil => rfl
    | cons x xs =>
      simp only [chunkListAux, List.flatten_cons]
      rw [ih ((x :: xs).drop c) (by simp at hl ⊢; omega)]
      exact List.take_append_drop c (x :: xs)

theorem chunkListAux_mem {α : Type} {c : Nat} (hc : 1 ≤ c) :
    ∀ (fuel : Nat) (l : List α) (ch : List α), l.length ≤ fuel →
      ch ∈ chunkListAux c fuel l → ch ≠ [] ∧ ch.length ≤ c := by
  intro fuel
  induction fuel with
  | zero =>
    intro l ch hl hm
    rw [List.eq_nil_of_length_eq_zero (Nat.le_zero.mp hl)] at hm
    exact absurd hm (List.not_mem_nil ch)
  | succ fuel ih =>
    intro l ch hl hm
    cases l with
    | nil => exact absurd hm (List.not_mem_nil ch)
    | cons x xs =>
      simp only [chunkListAux] at hm
      rcases List.mem_cons.mp hm with hm | hm
      · subst hm
        constructor
        · cases c with
          | zero => omega
          | succ c => simp [List.take_cons]
        · simp
      · exact ih ((x :: xs).drop c) ch (by simp at hl ⊢; omega) hm

theorem chunkListAux_dropLast {α : Type} {c : Nat} (hc : 1 ≤ c) :
    ∀ (fuel : Nat) (l : List α) (ch : List α), l.length ≤ fuel →
      ch ∈ (chunkListAux c fuel l).dropLast → ch.length = c := by
  intro fuel
  induction fuel with
  | zero =>
    intro l ch hl hm
    rw [List.eq_nil_of_length_eq_zero (Nat.le_zero.mp hl)] at hm
    exact absurd hm (List.not_mem_nil ch)
  | succ fuel ih =>
    intro l ch hl hm
    cases l with
    | nil => exact absurd hm (List.not_mem_nil ch)
    | cons x xs =>
      simp only [chunkListAux] at hm
      cases hrest : chunkListAux c fuel ((x :: xs).drop c) with
      | nil => rw [hrest] at hm; exact absurd hm (List.not_mem_nil ch)
      | cons r rs =>
        rw [hrest, List.dropLast_cons_of_ne_nil (by simp)] at hm
        rcases List.mem_cons.mp hm with hm | hm
        · subst hm
          have hne : (x :: xs).drop c ≠ [] := by
            intro hnil
            rw [hnil] at hrest
            cases fuel <;> simp [chunkListAux] at hrest
          have hlt : c < (x :: xs).length := by
            by_contra hle
            exact hne (List.drop_eq_nil_of_le (by omega))
          simp only [List.length_cons] at hlt
          simp [List.length_take]
          omega
        · rw [← hrest] at hm
          exact ih ((x :: xs).drop c) ch (by simp at hl ⊢; omega) hm

theorem chunkListAux_count {α : Type} {c : Nat} (hc : 1 ≤ c) :
    ∀ (fuel : Nat) (l : List α), l.length ≤ fuel → l ≠ [] →
      (chunkListAux c fuel l).length = (l.length - 1) / c + 1 := by
  intro fuel
  induction fuel with
  | zero =>
    intro l hl hne
    exact absurd (List.eq_nil_of_length_eq_zero (Nat.le_zero.mp hl)) hne
  | succ fuel ih =>
    intro l hl hne
    cases l with
    | nil => exact absurd rfl hne
    | cons x xs =>
      have hstep : chunkListAux c (fuel + 1) (x :: xs)
          = (x :: xs).take c :: chunkListAux c fuel ((x :: xs).drop c) := rfl
      rw [hstep, List.length_cons]
      by_cases hsmall : (x :: xs).length ≤ c
      · have hdrop : (x :: xs).drop c = [] := List.drop_eq_nil_of_le hsmall
        rw [hdrop]
        have h0 : (chunkListAux c fuel ([] : List α)).length = 0 := by
          cases fuel <;> rfl
        rw [h0]
        have hL : 1 ≤ (x :: xs).length := by simp
        have hz : ((x :: xs).length - 1) / c = 0 := Nat.div_eq_of_lt (by omega)
        omega
      · push_neg at hsmall
        have hdlen : ((x :: xs).drop c).length = (x :: xs).length - c := by
          rw [List.length_drop]
        have hdne : (x :: xs).drop c ≠ [] := by
          intro hnil
          rw [hnil] at hdlen
          simp only [List.length_nil] at hdlen
          omega
        have hfuel : ((x :: xs).drop c).length ≤ fuel := by
          have hll : (x :: xs).length ≤ fuel + 1 := hl
          rw [hdlen]
          omega
        rw [ih ((x :: xs).drop c) hfuel hdne, hdlen]
        have hL : 1 ≤ (x :: xs).length := by simp
        have e2 : ((x :: xs).length - c - 1 + c) / c
            = ((x :: xs).length - c - 1) / c + 1 := Nat.add_div_right _ (by omega)
        have e1 : (x :: xs).length - c - 1 + c = (x :: xs).length - 1 := by omega
        rw [e1] at e2
        omega

theorem chunkListAux_singletons {α : Type} :
    ∀ (fuel : Nat) (l : List α), l.length ≤ fuel →
      chunkListAux 1 fuel l = l.map (fun a => [a]) := by
  intro fuel
  induction fuel with
  | zero =>
    intro l hl
    rw [List.eq_nil_of_length_eq_zero (Nat.le_zero.mp hl)]
    rfl
  | succ fuel ih =>
    intro l hl
    cases l with
    | nil => rfl
    | cons x xs =>
      simp only [chunkListAux, List.drop_succ_cons, List.drop_zero, List.map_cons]
      rw [ih xs (by simp at hl; omega)]
      rfl

/-! # Claim C2 -/

/-- C2 (counterexample).  The claim states the Partitioner terminates without
error for every entry count `T ≥ 0`.  For `T = 0` (an empty input file, or
one containing only a header line) the code computes
`chunk_size = math.ceil(0 / n) = 0` and `range(0, 0, 0)` raises
`ValueError: range() arg 3 must not be zero`, aborting the job through the
surrounding catch-all; the model returns `none` on this path. -/
theorem claim2_counterexample : partitionChunks 4 ([] : List Nat) = none := by
  decide

/-- C2 (amended).  For every entry count `T ≥ 1` and every worker count
(coerced to at least 1), the Partitioner succeeds and produces at most `n`
non-empty contiguous chunks, each of size `ceil(T/n)` except possibly a
shorter final chunk, whose in-order concatenation exactly reproduces the
original sequence (no entry duplicated, none dropped); when `n > T` it
produces `T` chunks of size 1.  For `T = 0` the partitioner instead raises
(see the counterexample). -/
theorem claim2_amended {α : Type} (threads : Int) (data : List α) (h : data ≠ []) :
    ∃ chunks, partitionChunks threads data = some chunks
      ∧ chunks.flatten = data
      ∧ chunks.length ≤ (max 1 threads).toNat
      ∧ (∀ ch ∈ chunks, ch ≠ [])
      ∧ (∀ ch ∈ chunks.dropLast, ch.length
          = (data.length + (max 1 threads).toNat - 1) / (max 1 threads).toNat)
      ∧ (∀ ch ∈ chunks, ch.length
          ≤ (data.length + (max 1 threads).toNat - 1) / (max 1 threads).toNat)
      ∧ ((max 1 threads).toNat > data.length →
          chunks.length = data.length ∧ ∀ ch ∈ chunks, ch.length = 1) := by
  have hn : 1 ≤ (max 1 threads).toNat := by
    have h1 : (1 : Int) ≤ max 1 threads := le_max_left 1 threads
    omega
  set n := (max 1 threads).toNat with hnd
  have hT : 1 ≤ data.length := by
    cases data with
    | nil => exact absurd rfl h
    | cons a l => simp
  set T := data.length with hTd
  set c := (T + n - 1) / n with hcd
  have hc : 1 ≤ c := by
    rw [hcd]
    rw [Nat.le_div_iff_mul_le (by omega)]
    omega
  have hTc : T ≤ c * n := by
    have hdm := Nat.div_add_mod (T + n - 1) n
    have hlt : (T + n - 1) % n < n := Nat.mod_lt _ (by omega)
    rw [← hcd, Nat.mul_comm] at hdm
    omega
  have hchunks : partitionChunks threads data
      = some ((chunkListAux c T data).filter (fun ch => !ch.isEmpty)) := by
    simp only [partitionChunks, ← hnd, ← hTd, ← hcd]
    rw [if_neg (by omega)]
  have hallmem := fun ch hm => chunkListAux_mem hc T data ch (le_refl T) hm
  have hfilter : (chunkListAux c T data).filter (fun ch => !ch.isEmpty)
      = chunkListAux c T data := by
    apply List.filter_eq_self.mpr
    intro ch hm
    have := (hallmem ch hm).1
    simp [List.isEmpty_iff, this]
  refine ⟨chunkListAux c T data, by rw [hchunks, hfilter], ?_, ?_, ?_, ?_, ?_, ?_⟩
  · exact chunkListAux_flatten hc T data (le_refl T)
  · rw [chunkListAux_count hc T data (le_refl T) h, ← hTd]
    have hdiv : (T - 1) / c < n := by
      rw [Nat.div_lt_iff_lt_mul (show 0 < c by omega), Nat.mul_comm]
      omega
    exact hdiv
  · intro ch hm
    exact (hallmem ch hm).1
  · intro ch hm
    exact chunkListAux_dropLast hc T data ch (le_refl T) hm
  · intro ch hm
    exact (hallmem ch hm).2
  · intro hgt
    have hc1 : c = 1 := by
      have hup : c < 2 := by
        rw [hcd, Nat.div_lt_iff_lt_mul (by omega)]
        omega
      omega
    rw [hc1, chunkListAux_singletons T data (le_refl T)]
    constructor
    · simp
    · intro ch hm
      rcases List.mem_map.mp hm with ⟨a, _, ha⟩
      rw [← ha]
      rfl

/-- C2 (witness): the amended statement instantiated at three entries and
two workers, giving chunks of sizes 2 and 1. -/
theorem claim2_witness :
    ([0, 1, 2] : List Nat) ≠ []
    ∧ ∃ chunks, partitionChunks 2 [0, 1, 2] = some chunks
      ∧ chunks.flatten = [0, 1, 2]
      ∧ chunks.length ≤ (max 1 (2 : Int)).toNat
      ∧ (∀ ch ∈ chunks, ch ≠ [])
      ∧ (∀ ch ∈ chunks.dropLast, ch.length
          = (([0, 1, 2] : List Nat).length + (max 1 (2 : Int)).toNat - 1)
            / (max 1 (2 : Int)).toNat)
      ∧ (∀ ch ∈ chunks, ch.length
          ≤ (([0, 1, 2] : List Nat).length + (max 1 (2 : Int)).toNat - 1)
            / (max 1 (2 : Int)).toNat)
      ∧ ((max 1 (2 : Int)).toNat > ([0, 1, 2] : List Nat).length →
          chunks.length = ([0, 1, 2] : List Nat).length ∧ ∀ ch ∈ chunks, ch.length = 1) :=
  ⟨by decide, claim2_amended 2 [0, 1, 2] (by decide)⟩

/-! # Claim C3 -/

/-- C3 (confirmed).  The Translation Client `call_api_translate` always
returns a sequence of the same length and order as its input batch (each
result line carries the id prefix of the same-position input line), and in
each failure situation — Cancellation Flag set at entry, non-success HTTP
status, or an exception anywhere in the sequence — it returns the input
batch unchanged.  The embedding is a total function: every exception path
of the Python body is modelled by the `exn` outcome caught by the
surrounding `try`/`except`, so no exception propagates to the worker. -/
theorem claim3_thm (o : ApiOutcome) (batch : List PyStr) :
    (call_api_translate o batch).length = batch.length
    ∧ call_api_translate .stoppedAtEntry batch = batch
    ∧ call_api_translate .httpError batch = batch
    ∧ call_api_translate .exn batch = batch
    ∧ ∀ content, List.Forall₂
        (fun r l => ∃ s, r = pyStrip ((pySplit tripleColon l).headD []) ++ tripleColon ++ s)
        (call_api_translate (.success content) batch) batch := by
  refine ⟨?_, rfl, rfl, rfl, ?_⟩
  · cases o <;> simp [call_api_translate]
  · intro content
    simp only [call_api_translate]
    induction batch with
    | nil => exact List.Forall₂.nil
    | cons x xs ih =>
      exact List.Forall₂.cons ⟨_, rfl⟩ ih

/-! # Claim C7 -/

theorem wait_for_slot_lower (delay last now : ℚ) (hd : 0 ≤ delay)
    (hnow : last ≤ now) : last + delay ≤ wait_for_slot delay last now := by
  unfold wait_for_slot
  split
  · exact le_refl _
  · linarith [not_lt.mp (by assumption : ¬(now - last < delay))]

theorem grantTimes_lower (delay : ℚ) (hd : 0 ≤ delay) :
    ∀ (ts : List ℚ) (last : ℚ), serializedCalls delay last ts →
      ∀ g ∈ grantTimes delay last ts, last + delay ≤ g := by
  intro ts
  induction ts with
  | nil =>
    intro last _ g hg
    simp [grantTimes] at hg
  | cons t ts ih =>
    intro last hs g hg
    obtain ⟨h1, h2⟩ := hs
    rcases List.mem_cons.mp hg with hg | hg
    · subst hg
      exact wait_for_slot_lower delay last t hd h1
    · have hrec := ih (wait_for_slot delay last t) h2 g hg
      have hlow := wait_for_slot_lower delay last t hd h1
      linarith

/-- C7 (confirmed).  Under the idealized-time model of `wait_for_slot`
(exact sleeps, exact monotone clock, `request_lock` serializing the whole
check-and-update body — the model's fold over the call sequence is exactly
that single mutually exclusive critical section), for every nonnegative
minimum delay and every serialized sequence of acquisitions across all
workers sharing the single timestamp, the grant timestamps are pairwise at
least `delay` apart — in particular any two granted acquisitions start at
least `delay` apart. -/
theorem claim7_thm (delay last : ℚ) (ts : List ℚ) (hd : 0 ≤ delay)
    (hs : serializedCalls delay last ts) :
    List.Pairwise (fun a b => a + delay ≤ b) (grantTimes delay last ts) := by
  induction ts generalizing last with
  | nil => exact List.Pairwise.nil
  | cons t ts ih =>
    obtain ⟨h1, h2⟩ := hs
    refine List.Pairwise.cons ?_ (ih (wait_for_slot delay last t) h2)
    intro g hg
    exact grantTimes_lower delay hd ts (wait_for_slot delay last t) h2 g hg

/-! # Claim C8 -/

theorem foldl_save_progress (snaps : List (List PyStr)) :
    ∀ fs : FS, snaps.foldl (fun fs snap => save_progress_file snap fs) fs
      = ⟨fs.output, (snaps.getLast?.map fileContent).or fs.checkpoint⟩ := by
  induction snaps with
  | nil =>
    intro fs
    cases fs
    rfl
  | cons x xs ih =>
    intro fs
    rw [List.foldl_cons, ih (save_progress_file x fs)]
    cases xs with
    | nil => rfl
    | cons y ys =>
      have hs : ∃ z, (y :: ys).getLast? = some z := by
        have := (List.getLast?_isSome (l := y :: ys)).mpr (by simp)
        exact Option.isSome_iff_exists.mp this
      obtain ⟨z, hz⟩ := hs
      rw [List.getLast?_cons_cons, hz]
      rfl

/-- C8 (confirmed).  After all workers finish, the Coordinator replaces the
final output artifact with the checkpoint content if and only if the
Cancellation Flag is not set (the flag is monotone within a job, so unset
at finalization means never set during the job): when the flag is set the
output file is exactly what it was before the job, while the checkpoint
file still holds the content of the most recent flush; when it is unset the
output file becomes exactly that most recent flush. -/
theorem claim8_thm (rawInput : List PyStr) (threads : Int) (bs : Nat)
    (f : Nat → Nat → ApiOutcome) (sched : Nat → Option (Nat × CancelPhase))
    (stopSet : Bool) (fs0 : FS) (r : JobResult)
    (hr : run_logic rawInput threads bs f sched stopSet fs0 = some r) :
    (stopSet = true → r.fs.output = fs0.output)
    ∧ (stopSet = false →
        r.fs.output = (r.checkpoints.getLast?.map fileContent).or fs0.checkpoint)
    ∧ r.fs.checkpoint = (r.checkpoints.getLast?.map fileContent).or fs0.checkpoint := by
  simp only [run_logic] at hr
  split at hr
  · exact absurd hr (by simp)
  · rw [Option.some_inj] at hr
    subst hr
    rw [foldl_save_progress]
    cases stopSet with
    | false =>
      refine ⟨by simp, fun _ => ?_, ?_⟩ <;> simp [finalize]
    | true =>
      refine ⟨fun _ => ?_, by simp, ?_⟩ <;> simp [finalize]

/-- C8 (witness): a one-line job with a failed batch, run once with the flag
clear (output promoted to the checkpoint) — the hypothesis of the theorem is
discharged by evaluating the job model. -/
theorem claim8_witness :
    run_logic ["1:::Hi".toList] 1 1 (fun _ _ => .httpError) (fun _ => none)
        false ⟨none, none⟩
      = some ⟨["1:::Hi".toList], [["1:::Hi".toList]],
          ⟨some ("1:::Hi\n".toList), some ("1:::Hi\n".toList)⟩⟩
    ∧ ((false = true →
          (⟨some ("1:::Hi\n".toList), some ("1:::Hi\n".toList)⟩ : FS).output
            = (⟨none, none⟩ : FS).output)
        ∧ (false = false →
            (⟨some ("1:::Hi\n".toList), some ("1:::Hi\n".toList)⟩ : FS).output
              = (([["1:::Hi".toList]].getLast?.map fileContent).or
                  (⟨none, none⟩ : FS).checkpoint))
        ∧ (⟨some ("1:::Hi\n".toList), some ("1:::Hi\n".toList)⟩ : FS).checkpoint
            = (([["1:::Hi".toList]].getLast?.map fileContent).or
                (⟨none, none⟩ : FS).checkpoint)) :=
  ⟨by decide,
    claim8_thm ["1:::Hi".toList] 1 1 (fun _ _ => .httpError) (fun _ => none)
      false ⟨none, none⟩
      ⟨["1:::Hi".toList], [["1:::Hi".toList]],
        ⟨some ("1:::Hi\n".toList), some ("1:::Hi\n".toList)⟩⟩ (by decide)⟩

/-- C7 (witness): three serialized acquisitions with delay 1 starting from
timestamp 0 at clock times 0, 5 and 11/2, granted at times 1, 5 and 6. -/
theorem claim7_witness :
    (0 : ℚ) ≤ 1 ∧ serializedCalls 1 0 [0, 5, 11/2]
    ∧ List.Pairwise (fun a b => a + 1 ≤ b) (grantTimes 1 0 [0, 5, 11/2]) :=
  ⟨by norm_num, by norm_num [serializedCalls, wait_for_slot],
    claim7_thm 1 0 [0, 5, 11/2] (by norm_num)
      (by norm_num [serializedCalls, wait_for_slot])⟩

/-! ## Worker step and frame lemmas -/

theorem runWorkerAux_stop (bs : Nat) (f : Nat → ApiOutcome)
    (sched : Option (Nat × CancelPhase)) (fuel b : Nat) (x : PyStr × Nat)
    (xs : List (PyStr × Nat)) (st : JobState)
    (h : stoppedAtTop sched b = true) :
    runWorkerAux bs f sched (fuel + 1) b (x :: xs) st = st := by
  simp [runWorkerAux, h]

theorem runWorkerAux_step (bs : Nat) (f : Nat → ApiOutcome)
    (sched : Option (Nat × CancelPhase)) (fuel b : Nat) (x : PyStr × Nat)
    (xs : List (PyStr × Nat)) (st : JobState)
    (h : stoppedAtTop sched b = false) :
    runWorkerAux bs f sched (fuel + 1) b (x :: xs) st
      = runWorkerAux bs f sched fuel (b + 1) ((x :: xs).drop bs)
          ⟨writeResults (((x :: xs).take bs).map Prod.snd)
              (batchResults f sched b (((x :: xs).take bs).map Prod.fst)) st.buffer,
            st.checkpoints
              ++ [writeResults (((x :: xs).take bs).map Prod.snd)
                  (batchResults f sched b (((x :: xs).take bs).map Prod.fst)) st.buffer]⟩ := by
  simp [runWorkerAux, h]

theorem writeResults_frame :
    ∀ (idxs : List Nat) (vals : List PyStr) (buf : List PyStr) (i : Nat),
      (∀ ix ∈ idxs, ix ≠ i) → (writeResults idxs vals buf)[i]? = buf[i]? := by
  intro idxs
  induction idxs with
  | nil => intro vals buf i _; rfl
  | cons a idxs ih =>
    intro vals buf i hi
    cases vals with
    | nil => rfl
    | cons v vs =>
      show (writeResults idxs vs (buf.set a v))[i]? = buf[i]?
      rw [ih vs (buf.set a v) i (fun ix hx => hi ix (List.mem_cons_of_mem a hx))]
      exact List.getElem?_set_ne (hi a (List.mem_cons_self a idxs))

theorem runWorkerAux_frame (bs : Nat) (f : Nat → ApiOutcome)
    (sched : Option (Nat × CancelPhase)) :
    ∀ (fuel b : Nat) (chunk : List (PyStr × Nat)) (st : JobState) (i : Nat),
      (∀ p ∈ chunk, p.2 ≠ i) →
      ((runWorkerAux bs f sched fuel b chunk st).buffer)[i]? = st.buffer[i]?
      ∧ ∀ snap ∈ (runWorkerAux bs f sched fuel b chunk st).checkpoints,
          snap ∈ st.checkpoints ∨ snap[i]? = st.buffer[i]? := by
  intro fuel
  induction fuel with
  | zero =>
    intro b chunk st i hi
    cases chunk <;> exact ⟨rfl, fun snap hs => Or.inl hs⟩
  | succ fuel ih =>
    intro b chunk st i hi
    cases chunk with
    | nil => exact ⟨rfl, fun snap hs => Or.inl hs⟩
    | cons x xs =>
      cases hstop : stoppedAtTop sched b with
      | true =>
        rw [runWorkerAux_stop bs f sched fuel b x xs st hstop]
        exact ⟨rfl, fun snap hs => Or.inl hs⟩
      | false =>
        rw [runWorkerAux_step bs f sched fuel b x xs st hstop]
        have hw : ∀ ix ∈ ((x :: xs).take bs).map Prod.snd, ix ≠ i := by
          intro ix hx
          rcases List.mem_map.mp hx with ⟨p, hp, hpe⟩
          rw [← hpe]
          exact hi p (List.mem_of_mem_take hp)
        have hbuf := writeResults_frame (((x :: xs).take bs).map Prod.snd)
          (batchResults f sched b (((x :: xs).take bs).map Prod.fst)) st.buffer i hw
        have hrec := ih (b + 1) ((x :: xs).drop bs)
          ⟨writeResults (((x :: xs).take bs).map Prod.snd)
              (batchResults f sched b (((x :: xs).take bs).map Prod.fst)) st.buffer,
            st.checkpoints
              ++ [writeResults (((x :: xs).take bs).map Prod.snd)
                  (batchResults f sched b (((x :: xs).take bs).map Prod.fst)) st.buffer]⟩
          i (fun p hp => hi p (List.mem_of_mem_drop hp))
        constructor
        · rw [hrec.1]
          exact hbuf
        · intro snap hs
          rcases hrec.2 snap hs with hs2 | hs2
          · rcases List.mem_append.mp hs2 with h3 | h3
            · exact Or.inl h3
            · right
              rw [List.mem_singleton.mp h3]
              exact hbuf
          · right
            rw [hs2]
            exact hbuf

theorem runWorkerAux_cancel_frame (bs : Nat) (f : Nat → ApiOutcome)
    (k : Nat) (ph : CancelPhase) :
    ∀ (fuel b : Nat) (chunk : List (PyStr × Nat)) (st : JobState) (i : Nat),
      (∀ p ∈ chunk.take ((stopBound k ph - b) * bs), p.2 ≠ i) →
      ((runWorkerAux bs f (some (k, ph)) fuel b chunk st).buffer)[i]?
        = st.buffer[i]? := by
  intro fuel
  induction fuel with
  | zero =>
    intro b chunk st i _
    cases chunk <;> rfl
  | succ fuel ih =>
    intro b chunk st i hi
    cases chunk with
    | nil => rfl
    | cons x xs =>
      cases hstop : stoppedAtTop (some (k, ph)) b with
      | true =>
        rw [runWorkerAux_stop bs f (some (k, ph)) fuel b x xs st hstop]
      | false =>
        have hb : b < stopBound k ph := by
          cases ph <;> simp [stoppedAtTop, stopBound] at hstop ⊢ <;> omega
        rw [runWorkerAux_step bs f (some (k, ph)) fuel b x xs st hstop]
        have hbs_le : bs ≤ (stopBound k ph - b) * bs :=
          Nat.le_mul_of_pos_left bs (by omega)
        have hbatchmem : ∀ p ∈ (x :: xs).take bs,
            p ∈ (x :: xs).take ((stopBound k ph - b) * bs) := by
          intro p hp
          have htt : (x :: xs).take bs
              = ((x :: xs).take ((stopBound k ph - b) * bs)).take bs := by
            rw [List.take_take, Nat.min_eq_left hbs_le]
          rw [htt] at hp
          exact List.mem_of_mem_take hp
        have hw : ∀ ix ∈ ((x :: xs).take bs).map Prod.snd, ix ≠ i := by
          intro ix hx
          rcases List.mem_map.mp hx with ⟨p, hp, hpe⟩
          rw [← hpe]
          exact hi p (hbatchmem p hp)
        have hdrop : ∀ p ∈ ((x :: xs).drop bs).take ((stopBound k ph - (b + 1)) * bs),
            p ∈ (x :: xs).take ((stopBound k ph - b) * bs) := by
          intro p hp
          have heq := List.take_drop bs ((stopBound k ph - (b + 1)) * bs) (x :: xs)
          rw [heq] at hp
          have hp2 := List.mem_of_mem_drop hp
          have harith : bs + (stopBound k ph - (b + 1)) * bs
              ≤ (stopBound k ph - b) * bs := by
            have hsb : stopBound k ph - b = (stopBound k ph - (b + 1)) + 1 := by omega
            rw [hsb, Nat.succ_mul]
            omega
          have hsub : (x :: xs).take (bs + (stopBound k ph - (b + 1)) * bs)
              = ((x :: xs).take ((stopBound k ph - b) * bs)).take
                  (bs + (stopBound k ph - (b + 1)) * bs) := by
            rw [List.take_take, Nat.min_eq_left harith]
          rw [hsub] at hp2
          exact List.mem_of_mem_take hp2
        rw [ih (b + 1) ((x :: xs).drop bs) _ i (fun p hp => hi p (hdrop p hp))]
        exact writeResults_frame _ _ _ i hw

/-! ## Coordinator-level lemmas -/

theorem pyStrip_header (tl : PyStr) :
    ∃ u, pyStrip ("0:::".toList ++ tl) = "0:::".toList ++ u := by
  unfold pyStrip
  have h1 : ("0:::".toList ++ tl).dropWhile isPySpace = "0:::".toList ++ tl := by
    rw [show "0:::".toList ++ tl = '0' :: (':' :: ':' :: ':' :: tl) from rfl,
      List.dropWhile_cons]
    simp [show isPySpace '0' = false from by decide]
  rw [h1, List.reverse_append, List.dropWhile_append]
  by_cases he : (tl.reverse.dropWhile isPySpace).isEmpty
  · rw [if_pos he]
    have h2 : ("0:::".toList).reverse.dropWhile isPySpace = [':', ':', ':', '0'] := by
      decide
    rw [h2]
    exact ⟨[], by decide⟩
  · rw [if_neg he]
    refine ⟨(tl.reverse.dropWhile isPySpace).reverse, ?_⟩
    rw [List.reverse_append, List.reverse_reverse]

theorem header_toList : "0:::".toList = '0' :: tripleColon := by decide

theorem initSlot_header (u : PyStr) : initSlot ("0:::".toList ++ u) = "0:::".toList := by
  rw [header_toList]
  have hfs : findSub tripleColon (['0'] ++ tripleColon ++ u) = some (['0'], u) :=
    findSub_triple_exact ['0'] u (by decide) (by decide)
  rw [List.append_assoc] at hfs
  simp only [List.singleton_append] at hfs
  have heq2 : ('0' :: tripleColon) ++ u = ['0'] ++ (tripleColon ++ u) := by simp
  rw [heq2]
  have hhas : hasSub tripleColon (['0'] ++ (tripleColon ++ u)) = true := by
    simp [hasSub, hfs]
  have hsplit : pySplit tripleColon (['0'] ++ (tripleColon ++ u))
      = ['0'] :: pySplit tripleColon u :=
    pySplit_cons tripleColon_ne_nil hfs
  rw [initSlot, if_pos hhas, hsplit, List.headD_cons,
    show pyStrip ['0'] = ['0'] from by decide]
  rfl

theorem run_logic_header (tl : PyStr) (rest : List PyStr) (threads : Int) (bs : Nat)
    (f : Nat → Nat → ApiOutcome) (sched : Nat → Option (Nat × CancelPhase))
    (stopSet : Bool) (fs0 : FS) :
    run_logic (("0:::".toList ++ tl) :: rest) threads bs f sched stopSet fs0
      = match partitionChunks threads (dataPoints 1 (rest.map pyStrip)) with
        | none => none
        | some chunks =>
          let st : JobState := chunks.enum.foldl
            (fun st p => runWorker bs (f p.1) (sched p.1) p.2 st)
            ⟨"0:::".toList :: (rest.map pyStrip).map initSlot, []⟩
          let fs1 := st.checkpoints.foldl (fun fs snap => save_progress_file snap fs) fs0
          some ⟨st.buffer, st.checkpoints, finalize stopSet fs1⟩ := by
  obtain ⟨u, hu⟩ := pyStrip_header tl
  have hpre : ("0:::".toList).isPrefixOf ("0:::".toList ++ u) = true :=
    List.isPrefixOf_iff_prefix.mpr ⟨u, rfl⟩
  simp only [run_logic, List.map_cons, hu, hpre, if_true, initSlot_header,
    List.drop_one, List.tail_cons]

theorem partitionChunks_spec {α : Type} {threads : Int} {data : List α}
    {chunks : List (List α)} (h : partitionChunks threads data = some chunks) :
    chunks.flatten = data ∧ (∀ ch ∈ chunks, ch ≠ []) ∧ chunks ≠ [] := by
  have hn : 1 ≤ (max 1 threads).toNat := by
    have h1 : (1 : Int) ≤ max 1 threads := le_max_left 1 threads
    omega
  simp only [partitionChunks] at h
  split at h
  · exact absurd h (by simp)
  · rename_i hcz
    rw [Option.some_inj] at h
    have hcz2 : ¬((data.length + (max 1 threads).toNat - 1) / (max 1 threads).toNat
        = 0) := hcz
    have hc : 1 ≤ (data.length + (max 1 threads).toNat - 1) / (max 1 threads).toNat :=
      Nat.pos_of_ne_zero hcz2
    have hmem := fun ch hm =>
      chunkListAux_mem hc data.length data ch (le_refl data.length) hm
    have hfil : (chunkListAux ((data.length + (max 1 threads).toNat - 1)
          / (max 1 threads).toNat) data.length data).filter (fun c => !c.isEmpty)
        = chunkListAux ((data.length + (max 1 threads).toNat - 1)
          / (max 1 threads).toNat) data.length data := by
      apply List.filter_eq_self.mpr
      intro ch hm
      have := (hmem ch hm).1
      simp [List.isEmpty_iff, this]
    rw [hfil] at h
    subst h
    have hT : 1 ≤ data.length := by
      by_contra hT0
      have hd0 : data.length = 0 := by omega
      apply hcz
      rw [hd0]
      exact Nat.div_eq_of_lt (by omega)
    have hflat := chunkListAux_flatten hc data.length data (le_refl data.length)
    refine ⟨hflat, fun ch hm => (hmem ch hm).1, ?_⟩
    intro hnil
    rw [hnil] at hflat
    simp only [List.flatten_nil] at hflat
    rw [← hflat] at hT
    simp at hT

theorem dataPoints_mem :
    ∀ (s : Nat) (l : List PyStr) (p : PyStr × Nat), p ∈ dataPoints s l →
      ∃ j, l[j]? = some p.1 ∧ p.2 = s + j := by
  intro s l
  induction l generalizing s with
  | nil => intro p hp; simp [dataPoints] at hp
  | cons x xs ih =>
    intro p hp
    rcases List.mem_cons.mp hp with hp | hp
    · exact ⟨0, by subst hp; simp, by subst hp; simp⟩
    · obtain ⟨j, hj1, hj2⟩ := ih (s + 1) p hp
      exact ⟨j + 1, by simpa using hj1, by omega⟩

theorem foldl_runWorker_frame (bs : Nat) (f : Nat → Nat → ApiOutcome)
    (sched : Nat → Option (Nat × CancelPhase)) :
    ∀ (l : List (Nat × List (PyStr × Nat))) (st : JobState) (i : Nat),
      (∀ q ∈ l, ∀ p ∈ q.2, p.2 ≠ i) →
      ((l.foldl (fun st q => runWorker bs (f q.1) (sched q.1) q.2 st) st).buffer)[i]?
        = st.buffer[i]?
      ∧ ∀ snap ∈ (l.foldl (fun st q => runWorker bs (f q.1) (sched q.1) q.2 st)
          st).checkpoints,
          snap ∈ st.checkpoints ∨ snap[i]? = st.buffer[i]? := by
  intro l
  induction l with
  | nil => intro st i _; exact ⟨rfl, fun snap hs => Or.inl hs⟩
  | cons q l ih =>
    intro st i hq
    rw [List.foldl_cons]
    have hw := runWorkerAux_frame bs (f q.1) (sched q.1) q.2.length 0 q.2 st i
      (fun p hp => hq q (List.mem_cons_self q l) p hp)
    have hw1 : ((runWorker bs (f q.1) (sched q.1) q.2 st).buffer)[i]? = st.buffer[i]? :=
      hw.1
    have hw2 : ∀ snap ∈ (runWorker bs (f q.1) (sched q.1) q.2 st).checkpoints,
        snap ∈ st.checkpoints ∨ snap[i]? = st.buffer[i]? := hw.2
    have hrec := ih (runWorker bs (f q.1) (sched q.1) q.2 st) i
      (fun q2 h2 p hp => hq q2 (List.mem_cons_of_mem q h2) p hp)
    constructor
    · rw [hrec.1, hw1]
    · intro snap hs
      rcases hrec.2 snap hs with hs2 | hs2
      · rcases hw2 snap hs2 with h3 | h3
        · exact Or.inl h3
        · exact Or.inr h3
      · right
        rw [hs2, hw1]

theorem runWorkerAux_checkpoints_prefix (bs : Nat) (f : Nat → ApiOutcome)
    (sched : Option (Nat × CancelPhase)) :
    ∀ (fuel b : Nat) (chunk : List (PyStr × Nat)) (st : JobState),
      ∃ rest, (runWorkerAux bs f sched fuel b chunk st).checkpoints
        = st.checkpoints ++ rest := by
  intro fuel
  induction fuel with
  | zero =>
    intro b chunk st
    cases chunk <;> exact ⟨[], (List.append_nil _).symm⟩
  | succ fuel ih =>
    intro b chunk st
    cases chunk with
    | nil => exact ⟨[], (List.append_nil _).symm⟩
    | cons x xs =>
      cases hstop : stoppedAtTop sched b with
      | true =>
        rw [runWorkerAux_stop bs f sched fuel b x xs st hstop]
        exact ⟨[], (List.append_nil _).symm⟩
      | false =>
        rw [runWorkerAux_step bs f sched fuel b x xs st hstop]
        obtain ⟨rest, hrest⟩ := ih (b + 1) ((x :: xs).drop bs)
          ⟨writeResults (((x :: xs).take bs).map Prod.snd)
              (batchResults f sched b (((x :: xs).take bs).map Prod.fst)) st.buffer,
            st.checkpoints
              ++ [writeResults (((x :: xs).take bs).map Prod.snd)
                  (batchResults f sched b (((x :: xs).take bs).map Prod.fst)) st.buffer]⟩
        exact ⟨[writeResults (((x :: xs).take bs).map Prod.snd)
            (batchResults f sched b (((x :: xs).take bs).map Prod.fst)) st.buffer]
            ++ rest, by rw [hrest, List.append_assoc]⟩

theorem runWorker_progress (bs : Nat) (f : Nat → ApiOutcome)
    (x : PyStr × Nat) (xs : List (PyStr × Nat)) (st : JobState) :
    (runWorker bs f none (x :: xs) st).checkpoints ≠ [] := by
  have hstop : stoppedAtTop none 0 = false := rfl
  have hstep := runWorkerAux_step bs f none ((x :: xs).length - 1) 0 x xs st hstop
  have hlen : (x :: xs).length = ((x :: xs).length - 1) + 1 := by simp
  unfold runWorker
  rw [hlen, hstep]
  obtain ⟨rest, hrest⟩ := runWorkerAux_checkpoints_prefix bs f none
    ((x :: xs).length - 1) 1 ((x :: xs).drop bs)
    ⟨writeResults (((x :: xs).take bs).map Prod.snd)
        (batchResults f none 0 (((x :: xs).take bs).map Prod.fst)) st.buffer,
      st.checkpoints
        ++ [writeResults (((x :: xs).take bs).map Prod.snd)
            (batchResults f none 0 (((x :: xs).take bs).map Prod.fst)) st.buffer]⟩
  rw [hrest]
  simp

theorem foldl_runWorker_checkpoints_prefix (bs : Nat) (f : Nat → Nat → ApiOutcome)
    (sched : Nat → Option (Nat × CancelPhase)) :
    ∀ (l : List (Nat × List (PyStr × Nat))) (st : JobState),
      ∃ rest, ((l.foldl (fun st q => runWorker bs (f q.1) (sched q.1) q.2 st)
        st).checkpoints) = st.checkpoints ++ rest := by
  intro l
  induction l with
  | nil => intro st; exact ⟨[], by simp⟩
  | cons q l ih =>
    intro st
    rw [List.foldl_cons]
    obtain ⟨r1, hr1⟩ := runWorkerAux_checkpoints_prefix bs (f q.1) (sched q.1)
      q.2.length 0 q.2 st
    obtain ⟨r2, hr2⟩ := ih (runWorker bs (f q.1) (sched q.1) q.2 st)
    refine ⟨r1 ++ r2, ?_⟩
    rw [hr2]
    have : (runWorker bs (f q.1) (sched q.1) q.2 st).checkpoints
        = st.checkpoints ++ r1 := hr1
    rw [this, List.append_assoc]

theorem run_logic_header_none (tl : PyStr) (rest : List PyStr) (threads : Int)
    (bs : Nat) (f : Nat → Nat → ApiOutcome) (sched : Nat → Option (Nat × CancelPhase))
    (stopSet : Bool) (fs0 : FS)
    (hp : partitionChunks threads (dataPoints 1 (rest.map pyStrip)) = none) :
    run_logic (("0:::".toList ++ tl) :: rest) threads bs f sched stopSet fs0 = none := by
  rw [run_logic_header tl rest threads bs f sched stopSet fs0, hp]

theorem run_logic_header_some (tl : PyStr) (rest : List PyStr) (threads : Int)
    (bs : Nat) (f : Nat → Nat → ApiOutcome) (sched : Nat → Option (Nat × CancelPhase))
    (stopSet : Bool) (fs0 : FS) (chunks : List (List (PyStr × Nat)))
    (hp : partitionChunks threads (dataPoints 1 (rest.map pyStrip)) = some chunks) :
    run_logic (("0:::".toList ++ tl) :: rest) threads bs f sched stopSet fs0
      = some ⟨(chunks.enum.foldl (fun st p => runWorker bs (f p.1) (sched p.1) p.2 st)
            ⟨"0:::".toList :: (rest.map pyStrip).map initSlot, []⟩).buffer,
          (chunks.enum.foldl (fun st p => runWorker bs (f p.1) (sched p.1) p.2 st)
            ⟨"0:::".toList :: (rest.map pyStrip).map initSlot, []⟩).checkpoints,
          finalize stopSet
            (((chunks.enum.foldl (fun st p => runWorker bs (f p.1) (sched p.1) p.2 st)
              ⟨"0:::".toList :: (rest.map pyStrip).map initSlot, []⟩).checkpoints).foldl
              (fun fs snap => save_progress_file snap fs) fs0)⟩ := by
  rw [run_logic_header tl rest threads bs f sched stopSet fs0, hp]

/-! # Claim C10 -/

/-- C10 (confirmed).  When the first input line starts with `"0:::"` (the
header), the whole observable job result is invariant under replacing the
header's text after `":::"` (first conjunct: the run with any other tail
produces the very same result — the header text is preserved nowhere); the
header's Output Buffer slot is initialized to the placeholder `"0:::"` and,
the header being excluded from every Work Chunk, no worker ever writes
index 0: the final buffer and every checkpoint snapshot hold exactly
`"0:::"` at index 0; under a cancellation-free schedule at least one
checkpoint is flushed, and when the flag is clear at finalization the final
output file is promoted from exactly the last flushed snapshot. -/
theorem claim10_thm (tail1 tail2 : PyStr) (rest : List PyStr) (threads : Int)
    (bs : Nat) (f : Nat → Nat → ApiOutcome) (sched : Nat → Option (Nat × CancelPhase))
    (stopSet : Bool) (fs0 : FS) (r : JobResult)
    (hr : run_logic (("0:::".toList ++ tail1) :: rest) threads bs f sched stopSet fs0
      = some r) :
    run_logic (("0:::".toList ++ tail2) :: rest) threads bs f sched stopSet fs0 = some r
    ∧ r.buffer[0]? = some ("0:::".toList)
    ∧ (∀ snap ∈ r.checkpoints, snap[0]? = some ("0:::".toList))
    ∧ (sched = (fun _ => none) → r.checkpoints ≠ [])
    ∧ (stopSet = false →
        r.fs.output = (r.checkpoints.getLast?.map fileContent).or fs0.checkpoint) := by
  cases hp : partitionChunks threads (dataPoints 1 (rest.map pyStrip)) with
  | none =>
    rw [run_logic_header_none tail1 rest threads bs f sched stopSet fs0 hp] at hr
    exact absurd hr (by simp)
  | some chunks =>
    rw [run_logic_header_some tail1 rest threads bs f sched stopSet fs0 chunks hp] at hr
    rw [Option.some_inj] at hr
    subst hr
    have hspec := partitionChunks_spec hp
    have hidx : ∀ q ∈ chunks.enum, ∀ p ∈ q.2, p.2 ≠ 0 := by
      intro q hq p hp2
      have hq2 : q.2 ∈ chunks := List.snd_mem_of_mem_enum hq
      have hpD : p ∈ dataPoints 1 (rest.map pyStrip) := by
        rw [← hspec.1]
        exact List.mem_flatten.mpr ⟨q.2, hq2, hp2⟩
      obtain ⟨j, _, hj2⟩ := dataPoints_mem 1 (rest.map pyStrip) p hpD
      omega
    have hframe := foldl_runWorker_frame bs f sched chunks.enum
      ⟨"0:::".toList :: (rest.map pyStrip).map initSlot, []⟩ 0 hidx
    refine ⟨run_logic_header_some tail2 rest threads bs f sched stopSet fs0 chunks hp,
      ?_, ?_, ?_, ?_⟩
    · rw [hframe.1]
      simp
    · intro snap hs
      rcases hframe.2 snap hs with h2 | h2
      · exact absurd h2 (List.not_mem_nil snap)
      · rw [h2]
        simp
    · intro hsched
      subst hsched
      cases hch : chunks with
      | nil => exact absurd hch hspec.2.2
      | cons c0 cr =>
        have hc0 : c0 ≠ [] := hspec.2.1 c0 (by rw [hch]; exact List.mem_cons_self c0 cr)
        cases hc0x : c0 with
        | nil => exact absurd hc0x hc0
        | cons x xs =>
          rw [show ((x :: xs) :: cr).enum = (0, x :: xs) :: cr.enumFrom 1 from rfl,
            List.foldl_cons]
          obtain ⟨r2, hr2⟩ := foldl_runWorker_checkpoints_prefix bs f (fun _ => none)
            (cr.enumFrom 1)
            (runWorker bs (f 0) none (x :: xs)
              ⟨"0:::".toList :: (rest.map pyStrip).map initSlot, []⟩)
          rw [hr2]
          have hprog := runWorker_progress bs (f 0) x xs
            ⟨"0:::".toList :: (rest.map pyStrip).map initSlot, []⟩
          intro hnil
          rw [List.append_eq_nil] at hnil
          exact hprog hnil.1
    · intro hstop
      subst hstop
      rw [foldl_save_progress]
      simp [finalize]

/-- C10 (witness): a two-line input whose header `"0:::HDR"` is replaced by
`"0:::OTHER"` without changing the job result; the header slot stays
`"0:::"` everywhere. -/
theorem claim10_witness :
    run_logic (("0:::".toList ++ "OTHER".toList) :: ["1:::Hi".toList]) 1 1
        (fun _ _ => .success ("1:::Chao".toList)) (fun _ => none) false ⟨none, none⟩
      = some ⟨["0:::".toList, "1:::Chao".toList], [["0:::".toList, "1:::Chao".toList]],
          ⟨some ("0:::\n1:::Chao\n".toList), some ("0:::\n1:::Chao\n".toList)⟩⟩
    ∧ (["0:::".toList, "1:::Chao".toList] : List PyStr)[0]? = some ("0:::".toList)
    ∧ (∀ snap ∈ [["0:::".toList, "1:::Chao".toList]], snap[0]? = some ("0:::".toList))
    ∧ ((fun _ : Nat => (none : Option (Nat × CancelPhase))) = (fun _ => none) →
        ([["0:::".toList, "1:::Chao".toList]] : List (List PyStr)) ≠ [])
    ∧ (false = false →
        (⟨some ("0:::\n1:::Chao\n".toList), some ("0:::\n1:::Chao\n".toList)⟩
            : FS).output
          = (([["0:::".toList, "1:::Chao".toList]].getLast?.map fileContent).or
              (⟨none, none⟩ : FS).checkpoint)) :=
  claim10_thm ("HDR".toList) ("OTHER".toList) ["1:::Hi".toList] 1 1
    (fun _ _ => .success ("1:::Chao".toList)) (fun _ => none) false ⟨none, none⟩
    ⟨["0:::".toList, "1:::Chao".toList], [["0:::".toList, "1:::Chao".toList]],
      ⟨some ("0:::\n1:::Chao\n".toList), some ("0:::\n1:::Chao\n".toList)⟩⟩
    (by decide)

/-! ## Failure-run preservation lemmas (for C4) -/

theorem call_api_failure {o : ApiOutcome} (h : failureOutcome o = true)
    (lines : List PyStr) : call_api_translate o lines = lines := by
  cases o <;> simp [call_api_translate] <;> simp [failureOutcome] at h

theorem batchResults_failure {f : Nat → ApiOutcome}
    {sched : Option (Nat × CancelPhase)} {b : Nat}
    (hf : ∀ b2, failureOutcome (f b2) = true) (hs : noStreamCancel sched = true)
    (lines : List PyStr) : batchResults f sched b lines = lines := by
  match sched with
  | none => exact call_api_failure (hf b) lines
  | some (k, .beforeTop) => exact call_api_failure (hf b) lines
  | some (k, .beforeCall) =>
    by_cases hbk : b = k
    · simp only [batchResults, if_pos hbk]
      rfl
    · simp only [batchResults, if_neg hbk]
      exact call_api_failure (hf b) lines
  | some (k, .midStream p) => simp [noStreamCancel] at hs

theorem writeResults_preserve (raw : List PyStr) :
    ∀ (batch : List (PyStr × Nat)) (buf : List PyStr),
      (∀ p ∈ batch, raw[p.2]? = some p.1) →
      (∀ (i : Nat) (l : PyStr), raw[i]? = some l → hasSub tripleColon l = false →
        buf[i]? = some l) →
      ∀ (i : Nat) (l : PyStr), raw[i]? = some l → hasSub tripleColon l = false →
        (writeResults (batch.map Prod.snd) (batch.map Prod.fst) buf)[i]? = some l := by
  intro batch
  induction batch with
  | nil => intro buf _ hbuf i l hi hnt; exact hbuf i l hi hnt
  | cons p ps ih =>
    intro buf hb hbuf i l hi hnt
    have hstep : writeResults ((p :: ps).map Prod.snd) ((p :: ps).map Prod.fst) buf
        = writeResults (ps.map Prod.snd) (ps.map Prod.fst) (buf.set p.2 p.1) := rfl
    rw [hstep]
    refine ih (buf.set p.2 p.1) (fun q hq => hb q (List.mem_cons_of_mem p hq))
      ?_ i l hi hnt
    intro i2 l2 hi2 hnt2
    by_cases he : p.2 = i2
    · subst he
      have hp1 : raw[p.2]? = some p.1 := hb p (List.mem_cons_self p ps)
      rw [hi2] at hp1
      rw [Option.some_inj] at hp1
      have hlen : p.2 < buf.length := by
        have hb2 := hbuf p.2 l2 hi2 hnt2
        rw [List.getElem?_eq_some] at hb2
        exact hb2.1
      rw [List.getElem?_set_eq hlen, hp1]
    · rw [List.getElem?_set_ne he]
      exact hbuf i2 l2 hi2 hnt2

theorem runWorkerAux_failure_preserve (bs : Nat) (f : Nat → ApiOutcome)
    (sched : Option (Nat × CancelPhase)) (raw : List PyStr)
    (hf : ∀ b, failureOutcome (f b) = true) (hs : noStreamCancel sched = true) :
    ∀ (fuel b : Nat) (chunk : List (PyStr × Nat)) (st : JobState),
      (∀ p ∈ chunk, raw[p.2]? = some p.1) →
      (∀ (i : Nat) (l : PyStr), raw[i]? = some l → hasSub tripleColon l = false →
        st.buffer[i]? = some l) →
      ∀ (i : Nat) (l : PyStr), raw[i]? = some l → hasSub tripleColon l = false →
        ((runWorkerAux bs f sched fuel b chunk st).buffer)[i]? = some l := by
  intro fuel
  induction fuel with
  | zero =>
    intro b chunk st _ hbuf i l hi hnt
    cases chunk <;> exact hbuf i l hi hnt
  | succ fuel ih =>
    intro b chunk st hc hbuf i l hi hnt
    cases chunk with
    | nil => exact hbuf i l hi hnt
    | cons x xs =>
      cases hstop : stoppedAtTop sched b with
      | true =>
        rw [runWorkerAux_stop bs f sched fuel b x xs st hstop]
        exact hbuf i l hi hnt
      | false =>
        rw [runWorkerAux_step bs f sched fuel b x xs st hstop]
        rw [batchResults_failure hf hs]
        refine ih (b + 1) ((x :: xs).drop bs) _
          (fun p hp => hc p (List.mem_of_mem_drop hp)) ?_ i l hi hnt
        intro i2 l2 hi2 hnt2
        exact writeResults_preserve raw ((x :: xs).take bs) st.buffer
          (fun p hp => hc p (List.mem_of_mem_take hp)) hbuf i2 l2 hi2 hnt2

theorem foldl_runWorker_failure_preserve (bs : Nat) (f : Nat → Nat → ApiOutcome)
    (sched : Nat → Option (Nat × CancelPhase)) (raw : List PyStr)
    (hf : ∀ w b, failureOutcome (f w b) = true)
    (hs : ∀ w, noStreamCancel (sched w) = true) :
    ∀ (ql : List (Nat × List (PyStr × Nat))) (st : JobState),
      (∀ q ∈ ql, ∀ p ∈ q.2, raw[p.2]? = some p.1) →
      (∀ (i : Nat) (l : PyStr), raw[i]? = some l → hasSub tripleColon l = false →
        st.buffer[i]? = some l) →
      ∀ (i : Nat) (l : PyStr), raw[i]? = some l → hasSub tripleColon l = false →
        ((ql.foldl (fun st q => runWorker bs (f q.1) (sched q.1) q.2 st)
          st).buffer)[i]? = some l := by
  intro ql
  induction ql with
  | nil => intro st _ hbuf i l hi hnt; exact hbuf i l hi hnt
  | cons q ql ih =>
    intro st hq hbuf i l hi hnt
    rw [List.foldl_cons]
    refine ih (runWorker bs (f q.1) (sched q.1) q.2 st)
      (fun q2 h2 p hp => hq q2 (List.mem_cons_of_mem q h2) p hp) ?_ i l hi hnt
    intro i2 l2 hi2 hnt2
    exact runWorkerAux_failure_preserve bs (f q.1) (sched q.1) raw (hf q.1)
      (hs q.1) q.2.length 0 q.2 st (fun p hp => hq q (List.mem_cons_self q ql) p hp)
      hbuf i2 l2 hi2 hnt2

theorem run_logic_inv (rawInput : List PyStr) (threads : Int) (bs : Nat)
    (f : Nat → Nat → ApiOutcome) (sched : Nat → Option (Nat × CancelPhase))
    (stopSet : Bool) (fs0 : FS) (r : JobResult)
    (hr : run_logic rawInput threads bs f sched stopSet fs0 = some r) :
    ∃ (s : Nat) (chunks : List (List (PyStr × Nat))),
      partitionChunks threads (dataPoints s ((rawInput.map pyStrip).drop s))
        = some chunks
      ∧ r.buffer = (chunks.enum.foldl
          (fun st q => runWorker bs (f q.1) (sched q.1) q.2 st)
          ⟨(rawInput.map pyStrip).map initSlot, []⟩).buffer
      ∧ r.checkpoints = (chunks.enum.foldl
          (fun st q => runWorker bs (f q.1) (sched q.1) q.2 st)
          ⟨(rawInput.map pyStrip).map initSlot, []⟩).checkpoints := by
  simp only [run_logic] at hr
  split at hr
  · exact absurd hr (by simp)
  · rename_i chunks heq
    rw [Option.some_inj] at hr
    subst hr
    exact ⟨_, chunks, heq, rfl, rfl⟩

/-! ## File-serialization lemmas (for C9) -/

theorem splitNL_noNL : ∀ (s piece : PyStr), piece ∈ splitNL s → '\n' ∉ piece := by
  intro s
  induction s with
  | nil =>
    intro piece hp
    simp only [splitNL, List.mem_singleton] at hp
    subst hp
    simp
  | cons c t ih =>
    intro piece hp
    simp only [splitNL] at hp
    by_cases hc : c = '\n'
    · rw [if_pos hc] at hp
      rcases List.mem_cons.mp hp with hp | hp
      · subst hp; simp
      · exact ih piece hp
    · rw [if_neg hc] at hp
      cases hs : splitNL t with
      | nil =>
        rw [hs] at hp
        rcases List.mem_cons.mp hp with hp | hp
        · subst hp
          intro hmem
          rcases List.mem_cons.mp hmem with h2 | h2
          · exact hc h2.symm
          · exact absurd h2 (List.not_mem_nil _)
        · exact absurd hp (List.not_mem_nil piece)
      | cons p ps =>
        rw [hs] at hp
        rcases List.mem_cons.mp hp with hp | hp
        · subst hp
          intro hmem
          rcases List.mem_cons.mp hmem with h2 | h2
          · exact hc h2.symm
          · exact ih p (by rw [hs]; exact List.mem_cons_self p ps) h2
        · exact ih piece (by rw [hs]; exact List.mem_cons_of_mem p hp)

theorem splitNL_append : ∀ (l rest : PyStr), '\n' ∉ l →
    splitNL (l ++ '\n' :: rest) = l :: splitNL rest := by
  intro l
  induction l with
  | nil => intro rest _; simp [splitNL]
  | cons c t ih =>
    intro rest hn
    have hc : ¬(c = '\n') := by
      intro h
      exact hn (by rw [h]; exact List.mem_cons_self _ _)
    have ht := ih rest (fun h2 => hn (List.mem_cons_of_mem c h2))
    simp only [List.cons_append, splitNL, if_neg hc, List.append_eq, ht]

theorem fileContent_cons (b : PyStr) (bs : List PyStr) :
    fileContent (b :: bs) = (b ++ ['\n']) ++ fileContent bs := rfl

theorem splitNL_fileContent : ∀ (buffer : List PyStr), (∀ l ∈ buffer, noNL l) →
    splitNL (fileContent buffer) = buffer ++ [[]] := by
  intro buffer
  induction buffer with
  | nil => intro _; rfl
  | cons b bs ih =>
    intro h
    rw [fileContent_cons,
      show (b ++ ['\n']) ++ fileContent bs = b ++ '\n' :: fileContent bs by simp,
      splitNL_append b (fileContent bs) (h b (List.mem_cons_self b bs)),
      ih (fun l hl => h l (List.mem_cons_of_mem b hl))]
    rfl

theorem fileContent_getLast :
    ∀ (bs : List PyStr) (b : PyStr), (fileContent (b :: bs)).getLast? = some '\n' := by
  intro bs
  induction bs with
  | nil =>
    intro b
    rw [fileContent_cons]
    simp [show fileContent ([] : List PyStr) = [] from rfl]
  | cons b2 bs2 ih =>
    intro b
    rw [fileContent_cons]
    have hne : fileContent (b2 :: bs2) ≠ [] := by
      intro hnil
      have := ih b2
      rw [hnil] at this
      simp at this
    rw [List.getLast?_append_of_ne_nil _ hne]
    exact ih b2

theorem linesOf_fileContent (buffer : List PyStr) (h : ∀ l ∈ buffer, noNL l) :
    linesOf (fileContent buffer) = buffer := by
  cases buffer with
  | nil => rfl
  | cons b bs =>
    have hgl := fileContent_getLast bs b
    have hne : fileContent (b :: bs) ≠ [] := by
      intro h2
      rw [h2] at hgl
      simp at hgl
    rw [linesOf, if_neg hne, if_pos hgl, splitNL_fileContent _ h]
    exact List.dropLast_concat

/-! ## Newline-freedom of every value the pipeline writes (for C9) -/

theorem mem_pyStrip {s : PyStr} {x : Char} (h : x ∈ pyStrip s) : x ∈ s := by
  unfold pyStrip at h
  rw [List.mem_reverse] at h
  have h2 := (List.dropWhile_sublist isPySpace).subset h
  rw [List.mem_reverse] at h2
  exact (List.dropWhile_sublist isPySpace).subset h2

theorem mem_pySplitAux (sep : PyStr) :
    ∀ (fuel : Nat) (s piece : PyStr), piece ∈ pySplitAux sep fuel s →
      ∀ x ∈ piece, x ∈ s := by
  intro fuel
  induction fuel with
  | zero =>
    intro s piece hp x hx
    simp only [pySplitAux, List.mem_singleton] at hp
    subst hp
    exact hx
  | succ fuel ih =>
    intro s piece hp x hx
    simp only [pySplitAux] at hp
    cases hf : findSub sep s with
    | none =>
      rw [hf] at hp
      simp only [List.mem_singleton] at hp
      subst hp
      exact hx
    | some p =>
      obtain ⟨b, a⟩ := p
      rw [hf] at hp
      have hd := findSub_decomp hf
      rcases List.mem_cons.mp hp with hp | hp
      · subst hp
        rw [hd]
        simp [hx]
      · have := ih a piece hp x hx
        rw [hd]
        simp [this]

theorem mem_pySplit {sep s piece : PyStr} (h : piece ∈ pySplit sep s) :
    ∀ x ∈ piece, x ∈ s :=
  mem_pySplitAux sep s.length s piece h

theorem pySplit_getD_subset (sep s : PyStr) (n : Nat) :
    ∀ x ∈ (pySplit sep s).getD n [], x ∈ s := by
  intro x hx
  rw [List.getD_eq_getElem?_getD] at hx
  cases hg : (pySplit sep s)[n]? with
  | none => rw [hg] at hx; simp at hx
  | some piece =>
    rw [hg] at hx
    simp only [Option.getD_some] at hx
    exact mem_pySplit (List.getElem?_mem hg) x hx

theorem pySplit_headD_subset (sep s : PyStr) :
    ∀ x ∈ (pySplit sep s).headD [], x ∈ s := by
  intro x hx
  cases hg : pySplit sep s with
  | nil => rw [hg] at hx; simp at hx
  | cons p ps =>
    rw [hg] at hx
    simp only [List.headD_cons] at hx
    exact mem_pySplit (by rw [hg]; exact List.mem_cons_self p ps) x hx

theorem fallbackMatch_text_subset {line d t : PyStr}
    (h : fallbackMatch line = some (d, t)) : ∀ x ∈ t, x ∈ line := by
  intro x hx
  by_cases hdn : line.takeWhile Char.isDigit = []
  · unfold fallbackMatch at h
    rw [if_pos hdn] at h
    exact absurd h (by simp)
  · cases hr2 : (line.dropWhile Char.isDigit).dropWhile isPySpace with
    | nil =>
      unfold fallbackMatch at h
      rw [if_neg hdn, hr2] at h
      exact absurd h (by simp)
    | cons c r3 =>
      have hfm : fallbackMatch line
          = if c ∈ seps
            then some (line.takeWhile Char.isDigit, r3.dropWhile isPySpace)
            else none := by
        unfold fallbackMatch
        rw [if_neg hdn, hr2]
      rw [hfm] at h
      by_cases hc : c ∈ seps
      · rw [if_pos hc, Option.some_inj] at h
        have hxt : x ∈ r3 := by
          have hts : t = r3.dropWhile isPySpace := (congrArg Prod.snd h).symm
          rw [hts] at hx
          exact (List.dropWhile_sublist isPySpace).subset hx
        have hx2 : x ∈ (line.dropWhile Char.isDigit).dropWhile isPySpace := by
          rw [hr2]
          exact List.mem_cons_of_mem c hxt
        exact (List.dropWhile_sublist Char.isDigit).subset
          ((List.dropWhile_sublist isPySpace).subset hx2)
      · rw [if_neg hc] at h
        exact absurd h (by simp)

theorem dlookup_mem : ∀ (m : TransMap) (k v : PyStr), dlookup m k = some v →
    ∃ k0, (k0, v) ∈ m := by
  intro m
  induction m with
  | nil => intro k v h; simp [dlookup] at h
  | cons e rest ih =>
    intro k v h
    obtain ⟨k0, v0⟩ := e
    simp only [dlookup] at h
    by_cases hk : k0 = k
    · rw [if_pos hk, Option.some_inj] at h
      exact ⟨k0, by rw [h]; exact List.mem_cons_self _ _⟩
    · rw [if_neg hk] at h
      obtain ⟨k1, hk1⟩ := ih k v h
      exact ⟨k1, List.mem_cons_of_mem _ hk1⟩

theorem mem_dinsert : ∀ (m : TransMap) (k v : PyStr) (p : PyStr × PyStr),
    p ∈ dinsert m k v → p ∈ m ∨ p = (k, v) := by
  intro m
  induction m with
  | nil =>
    intro k v p hp
    simp only [dinsert, List.mem_singleton] at hp
    exact Or.inr hp
  | cons e rest ih =>
    intro k v p hp
    obtain ⟨k0, v0⟩ := e
    simp only [dinsert] at hp
    by_cases hk : k0 = k
    · rw [if_pos hk] at hp
      rcases List.mem_cons.mp hp with hp | hp
      · exact Or.inr hp
      · exact Or.inl (List.mem_cons_of_mem _ hp)
    · rw [if_neg hk] at hp
      rcases List.mem_cons.mp hp with hp | hp
      · exact Or.inl (by rw [hp]; exact List.mem_cons_self _ _)
      · rcases ih k v p hp with h2 | h2
        · exact Or.inl (List.mem_cons_of_mem _ h2)
        · exact Or.inr h2

theorem mem_pySplit1 {sep s piece : PyStr} (h : piece ∈ pySplit1 sep s) :
    ∀ x ∈ piece, x ∈ s := by
  intro x hx
  unfold pySplit1 at h
  cases hf : findSub sep s with
  | none =>
    rw [hf] at h
    simp only [List.mem_singleton] at h
    subst h
    exact hx
  | some p =>
    obtain ⟨b, a⟩ := p
    rw [hf] at h
    have hd := findSub_decomp hf
    rcases List.mem_cons.mp h with h2 | h2
    · subst h2
      rw [hd]
      simp [hx]
    · rw [List.mem_singleton] at h2
      subst h2
      rw [hd]
      simp [hx]

theorem pySplit1_getD_subset (sep s : PyStr) (n : Nat) :
    ∀ x ∈ (pySplit1 sep s).getD n [], x ∈ s := by
  intro x hx
  rw [List.getD_eq_getElem?_getD] at hx
  cases hg : (pySplit1 sep s)[n]? with
  | none => rw [hg] at hx; simp at hx
  | some piece =>
    rw [hg] at hx
    simp only [Option.getD_some] at hx
    exact mem_pySplit1 (List.getElem?_mem hg) x hx

theorem parseLine_values (m : TransMap) (line : PyStr) (hline : noNL line)
    (hm : ∀ p ∈ m, noNL p.2) : ∀ p ∈ parseLine m line, noNL p.2 := by
  intro p hp
  by_cases hh : hasSub tripleColon line = true
  · have hpl : parseLine m line
        = dinsert m (pyStrip ((pySplit1 tripleColon line).headD []))
            (pyStrip ((pySplit1 tripleColon line).getD 1 [])) := by
      unfold parseLine
      rw [if_pos hh]
    rw [hpl] at hp
    rcases mem_dinsert m _ _ p hp with h2 | h2
    · exact hm p h2
    · rw [h2]
      intro hmem
      exact hline (pySplit1_getD_subset tripleColon line 1 '\n' (mem_pyStrip hmem))
  · cases hfb : fallbackMatch line with
    | none =>
      have hpl : parseLine m line = m := by
        unfold parseLine
        rw [if_neg hh, hfb]
      rw [hpl] at hp
      exact hm p hp
    | some q =>
      obtain ⟨d, t⟩ := q
      have hpl : parseLine m line = dinsert m d (pyStrip t) := by
        unfold parseLine
        rw [if_neg hh, hfb]
      rw [hpl] at hp
      rcases mem_dinsert m _ _ p hp with h2 | h2
      · exact hm p h2
      · rw [h2]
        intro hmem
        exact hline (fallbackMatch_text_subset hfb '\n' (mem_pyStrip hmem))

theorem foldl_parseLine_values :
    ∀ (pieces : List PyStr) (m : TransMap),
      (∀ piece ∈ pieces, noNL piece) → (∀ p ∈ m, noNL p.2) →
      ∀ p ∈ pieces.foldl parseLine m, noNL p.2 := by
  intro pieces
  induction pieces with
  | nil => intro m _ hm p hp; exact hm p hp
  | cons piece pieces ih =>
    intro m hpieces hm p hp
    rw [List.foldl_cons] at hp
    exact ih (parseLine m piece)
      (fun q hq => hpieces q (List.mem_cons_of_mem piece hq))
      (parseLine_values m piece (hpieces piece (List.mem_cons_self piece pieces)) hm)
      p hp

theorem parseResponse_values (c : PyStr) : ∀ p ∈ parseResponse c, noNL p.2 :=
  foldl_parseLine_values (splitNL (pyStrip c)) []
    (fun piece hp => splitNL_noNL (pyStrip c) piece hp)
    (fun p hp => absurd hp (List.not_mem_nil p))

theorem reconcileLine_noNL (m : TransMap) (line : PyStr)
    (hm : ∀ p ∈ m, noNL p.2) (hl : noNL line) : noNL (reconcileLine m line) := by
  simp only [reconcileLine]
  cases hd : dlookup m (pyStrip ((pySplit tripleColon line).headD [])) with
  | some t =>
    simp only [hd]
    intro hmem
    rcases List.mem_append.mp hmem with h2 | h2
    · rcases List.mem_append.mp h2 with h3 | h3
      · exact hl (pySplit_headD_subset tripleColon line '\n' (mem_pyStrip h3))
      · exact absurd h3 (by decide)
    · obtain ⟨k0, hk0⟩ := dlookup_mem m _ t hd
      exact hm (k0, t) hk0 h2
  | none =>
    simp only [hd]
    by_cases hh : hasSub tripleColon line = true
    · rw [if_pos hh]
      intro hmem
      rcases List.mem_append.mp hmem with h2 | h2
      · rcases List.mem_append.mp h2 with h3 | h3
        · exact hl (pySplit_headD_subset tripleColon line '\n' (mem_pyStrip h3))
        · exact absurd h3 (by decide)
      · exact hl (pySplit_getD_subset tripleColon line 1 '\n' (mem_pyStrip h2))
    · rw [if_neg hh]
      intro hmem
      rcases List.mem_append.mp hmem with h2 | h2
      · rcases List.mem_append.mp h2 with h3 | h3
        · exact hl (pySplit_headD_subset tripleColon line '\n' (mem_pyStrip h3))
        · exact absurd h3 (by decide)
      · exact hl h2

theorem call_api_noNL (o : ApiOutcome) (lines : List PyStr)
    (h : ∀ l ∈ lines, noNL l) : ∀ out ∈ call_api_translate o lines, noNL out := by
  intro out hout
  cases o with
  | success c =>
    simp only [call_api_translate] at hout
    rcases List.mem_map.mp hout with ⟨l, hl, he⟩
    rw [← he]
    exact reconcileLine_noNL _ l (fun p hp => parseResponse_values c p hp) (h l hl)
  | stoppedAtEntry => exact h out hout
  | httpError => exact h out hout
  | exn => exact h out hout

theorem batchResults_noNL (f : Nat → ApiOutcome) (sched : Option (Nat × CancelPhase))
    (b : Nat) (lines : List PyStr) (h : ∀ l ∈ lines, noNL l) :
    ∀ out ∈ batchResults f sched b lines, noNL out := by
  intro out hout
  match sched with
  | none => exact call_api_noNL (f b) lines h out hout
  | some (k, .beforeTop) => exact call_api_noNL (f b) lines h out hout
  | some (k, .beforeCall) =>
    have hout2 : out ∈ (if b = k then call_api_translate .stoppedAtEntry lines
        else call_api_translate (f b) lines) := hout
    by_cases hbk : b = k
    · rw [if_pos hbk] at hout2
      exact call_api_noNL .stoppedAtEntry lines h out hout2
    · rw [if_neg hbk] at hout2
      exact call_api_noNL (f b) lines h out hout2
  | some (k, .midStream pc) =>
    have hout2 : out ∈ (if b = k then call_api_translate (.success pc) lines
        else call_api_translate (f b) lines) := hout
    by_cases hbk : b = k
    · rw [if_pos hbk] at hout2
      exact call_api_noNL (.success pc) lines h out hout2
    · rw [if_neg hbk] at hout2
      exact call_api_noNL (f b) lines h out hout2

theorem writeResults_noNL :
    ∀ (idxs : List Nat) (vals : List PyStr) (buf : List PyStr),
      (∀ v ∈ vals, noNL v) → (∀ l ∈ buf, noNL l) →
      ∀ l ∈ writeResults idxs vals buf, noNL l := by
  intro idxs
  induction idxs with
  | nil => intro vals buf _ hbuf l hl; exact hbuf l hl
  | cons a idxs ih =>
    intro vals buf hv hbuf l hl
    cases vals with
    | nil => exact hbuf l hl
    | cons v vs =>
      have hstep : writeResults (a :: idxs) (v :: vs) buf
          = writeResults idxs vs (buf.set a v) := rfl
      rw [hstep] at hl
      refine ih vs (buf.set a v) (fun v2 h2 => hv v2 (List.mem_cons_of_mem v h2))
        ?_ l hl
      intro l2 h2
      rcases List.mem_or_eq_of_mem_set h2 with h3 | h3
      · exact hbuf l2 h3
      · rw [h3]
        exact hv v (List.mem_cons_self v vs)

theorem runWorkerAux_noNL (bs : Nat) (f : Nat → ApiOutcome)
    (sched : Option (Nat × CancelPhase)) :
    ∀ (fuel b : Nat) (chunk : List (PyStr × Nat)) (st : JobState),
      (∀ p ∈ chunk, noNL p.1) →
      (∀ l ∈ st.buffer, noNL l) →
      (∀ snap ∈ st.checkpoints, ∀ l ∈ snap, noNL l) →
      (∀ l ∈ (runWorkerAux bs f sched fuel b chunk st).buffer, noNL l)
      ∧ (∀ snap ∈ (runWorkerAux bs f sched fuel b chunk st).checkpoints,
          ∀ l ∈ snap, noNL l) := by
  intro fuel
  induction fuel with
  | zero =>
    intro b chunk st _ hbuf hck
    cases chunk <;> exact ⟨hbuf, hck⟩
  | succ fuel ih =>
    intro b chunk st hc hbuf hck
    cases chunk with
    | nil => exact ⟨hbuf, hck⟩
    | cons x xs =>
      cases hstop : stoppedAtTop sched b with
      | true =>
        rw [runWorkerAux_stop bs f sched fuel b x xs st hstop]
        exact ⟨hbuf, hck⟩
      | false =>
        rw [runWorkerAux_step bs f sched fuel b x xs st hstop]
        have hlines : ∀ l ∈ ((x :: xs).take bs).map Prod.fst, noNL l := by
          intro l hl
          rcases List.mem_map.mp hl with ⟨p, hp, he⟩
          rw [← he]
          exact hc p (List.mem_of_mem_take hp)
        have hres := batchResults_noNL f sched b (((x :: xs).take bs).map Prod.fst)
          hlines
        have hbuf2 := writeResults_noNL (((x :: xs).take bs).map Prod.snd)
          (batchResults f sched b (((x :: xs).take bs).map Prod.fst)) st.buffer
          hres hbuf
        refine ih (b + 1) ((x :: xs).drop bs) _
          (fun p hp => hc p (List.mem_of_mem_drop hp)) hbuf2 ?_
        intro snap hs l hl
        rcases List.mem_append.mp hs with h2 | h2
        · exact hck snap h2 l hl
        · rw [List.mem_singleton.mp h2] at hl
          exact hbuf2 l hl

theorem foldl_runWorker_noNL (bs : Nat) (f : Nat → Nat → ApiOutcome)
    (sched : Nat → Option (Nat × CancelPhase)) :
    ∀ (ql : List (Nat × List (PyStr × Nat))) (st : JobState),
      (∀ q ∈ ql, ∀ p ∈ q.2, noNL p.1) →
      (∀ l ∈ st.buffer, noNL l) →
      (∀ snap ∈ st.checkpoints, ∀ l ∈ snap, noNL l) →
      (∀ l ∈ ((ql.foldl (fun st q => runWorker bs (f q.1) (sched q.1) q.2 st)
          st).buffer), noNL l)
      ∧ (∀ snap ∈ ((ql.foldl (fun st q => runWorker bs (f q.1) (sched q.1) q.2 st)
          st).checkpoints), ∀ l ∈ snap, noNL l) := by
  intro ql
  induction ql with
  | nil => intro st _ hbuf hck; exact ⟨hbuf, hck⟩
  | cons q ql ih =>
    intro st hq hbuf hck
    rw [List.foldl_cons]
    have hw := runWorkerAux_noNL bs (f q.1) (sched q.1) q.2.length 0 q.2 st
      (fun p hp => hq q (List.mem_cons_self q ql) p hp) hbuf hck
    have hw1 : ∀ l ∈ (runWorker bs (f q.1) (sched q.1) q.2 st).buffer, noNL l := hw.1
    have hw2 : ∀ snap ∈ (runWorker bs (f q.1) (sched q.1) q.2 st).checkpoints,
        ∀ l ∈ snap, noNL l := hw.2
    exact ih (runWorker bs (f q.1) (sched q.1) q.2 st)
      (fun q2 h2 p hp => hq q2 (List.mem_cons_of_mem q h2) p hp) hw1 hw2

theorem initSlot_noNL {line : PyStr} (h : noNL line) : noNL (initSlot line) := by
  unfold initSlot
  by_cases hh : hasSub tripleColon line = true
  · rw [if_pos hh]
    intro hmem
    rcases List.mem_append.mp hmem with h2 | h2
    · exact h (pySplit_headD_subset tripleColon line '\n' (mem_pyStrip h2))
    · exact absurd h2 (by decide)
  · rw [if_neg hh]
    exact h

/-! # Claim C9 -/

/-- C9 (confirmed).  After every call of the Checkpoint Writer, the
checkpoint temp file holds exactly one line per Output Buffer slot, in
index order, each line equal to that slot's content at flush time, with no
partial or truncated line: reading the flushed file content back as lines
recovers the flushed snapshot exactly.  This rests on the invariant, proved
through the whole pipeline, that no slot value ever contains a newline
(input lines are newline-free after `readlines`/`strip`, and every parsed
or reconciled value is built from newline-split pieces).  Each flush writes
the whole file while holding the exclusive `file_write_lock` shared by all
workers, which the model captures by making the write one atomic snapshot. -/
theorem claim9_thm (rawInput : List PyStr) (threads : Int) (bs : Nat)
    (f : Nat → Nat → ApiOutcome) (sched : Nat → Option (Nat × CancelPhase))
    (stopSet : Bool) (fs0 : FS) (r : JobResult)
    (hr : run_logic rawInput threads bs f sched stopSet fs0 = some r)
    (hraw : ∀ l ∈ rawInput, noNL l) :
    ∀ snap ∈ r.checkpoints, linesOf (fileContent snap) = snap := by
  obtain ⟨s, chunks, hp, _, hck⟩ :=
    run_logic_inv rawInput threads bs f sched stopSet fs0 r hr
  rw [hck]
  have hstr : ∀ l ∈ rawInput.map pyStrip, noNL l := by
    intro l hl
    rcases List.mem_map.mp hl with ⟨l0, h0, he⟩
    rw [← he]
    intro hmem
    exact hraw l0 h0 (mem_pyStrip hmem)
  have hinit : ∀ l ∈ (rawInput.map pyStrip).map initSlot, noNL l := by
    intro l hl
    rcases List.mem_map.mp hl with ⟨l0, h0, he⟩
    rw [← he]
    exact initSlot_noNL (hstr l0 h0)
  have hflat := (partitionChunks_spec hp).1
  have hchunklines : ∀ q ∈ chunks.enum, ∀ p ∈ q.2, noNL p.1 := by
    intro q hq p hp2
    have hq2 : q.2 ∈ chunks := List.snd_mem_of_mem_enum hq
    have hpD : p ∈ dataPoints s ((rawInput.map pyStrip).drop s) := by
      rw [← hflat]
      exact List.mem_flatten.mpr ⟨q.2, hq2, hp2⟩
    obtain ⟨j, hj1, _⟩ := dataPoints_mem s ((rawInput.map pyStrip).drop s) p hpD
    rw [List.getElem?_drop] at hj1
    exact hstr p.1 (List.getElem?_mem hj1)
  have hall := foldl_runWorker_noNL bs f sched chunks.enum
    ⟨(rawInput.map pyStrip).map initSlot, []⟩ hchunklines hinit
    (fun snap hs => absurd hs (List.not_mem_nil snap))
  intro snap hs
  exact linesOf_fileContent snap (hall.2 snap hs)

/-- C9 (witness): a one-line job whose single flush serializes the buffer
`["1:::Hi"]` as `"1:::Hi\n"`, which reads back as exactly that one line. -/
theorem claim9_witness :
    (∀ l ∈ (["1:::Hi".toList] : List PyStr), noNL l)
    ∧ ∀ snap ∈ (JobResult.mk ["1:::Hi".toList] [["1:::Hi".toList]]
        ⟨some ("1:::Hi\n".toList), some ("1:::Hi\n".toList)⟩).checkpoints,
        linesOf (fileContent snap) = snap :=
  ⟨by
    intro l hl
    rw [List.mem_singleton] at hl
    subst hl
    show ('\n' ∉ "1:::Hi".toList)
    decide,
    claim9_thm ["1:::Hi".toList] 1 1 (fun _ _ => .httpError) (fun _ => none)
      false ⟨none, none⟩
      ⟨["1:::Hi".toList], [["1:::Hi".toList]],
        ⟨some ("1:::Hi\n".toList), some ("1:::Hi\n".toList)⟩⟩
      (by decide)
      (by
        intro l hl
        rw [List.mem_singleton] at hl
        subst hl
        show ('\n' ∉ "1:::Hi".toList)
        decide)⟩

/-! # Claim C4 -/

/-- C4 (counterexample).  The claim states that a line without `':::'` is
never translated and never rewritten, so its slot still equals the raw line
when the job completes.  Refuted: such lines ARE included in the Work
Chunks (`base.py` line 640 enumerates every line after the header) and sent
to the API, and after a successful call the reconciliation step rewrites
the slot as `f"{line}:::{translated_map.get(line, line)}"`: for input
`["hello"]` and any successful response not mentioning `"hello"`, the final
buffer holds `"hello:::hello"`, not `"hello"`. -/
theorem claim4_counterexample :
    (run_logic ["hello".toList] 1 1 (fun _ _ => .success []) (fun _ => none)
        false ⟨none, none⟩).map JobResult.buffer
      = some ["hello:::hello".toList]
    ∧ "hello:::hello".toList ≠ "hello".toList := by
  refine ⟨by decide, by decide⟩

/-- C4 (amended).  For every input line without `':::'`, the Output Buffer
slot is initialized to the raw (stripped) line itself; the line IS included
in a Work Chunk and sent to the API, but in any run in which every API call
fails (flag set at entry, HTTP error, or exception — and no mid-stream
cancellation), every such slot still equals the raw line when the job
completes, because failed batches are written back verbatim.  After a
successful call the slot is instead rewritten to
`{line}:::{mapping lookup of the line defaulting to the line}` (see the
counterexample). -/
theorem claim4_amended (rawInput : List PyStr) (threads : Int) (bs : Nat)
    (f : Nat → Nat → ApiOutcome) (sched : Nat → Option (Nat × CancelPhase))
    (stopSet : Bool) (fs0 : FS) (r : JobResult) (i : Nat) (l : PyStr)
    (hr : run_logic rawInput threads bs f sched stopSet fs0 = some r)
    (hf : ∀ w b, failureOutcome (f w b) = true)
    (hs : ∀ w, noStreamCancel (sched w) = true)
    (hil : (rawInput.map pyStrip)[i]? = some l)
    (hnt : hasSub tripleColon l = false) :
    ((rawInput.map pyStrip).map initSlot)[i]? = some l
    ∧ r.buffer[i]? = some l := by
  have hinit : ∀ (i2 : Nat) (l2 : PyStr), (rawInput.map pyStrip)[i2]? = some l2 →
      hasSub tripleColon l2 = false →
      ((rawInput.map pyStrip).map initSlot)[i2]? = some l2 := by
    intro i2 l2 hi2 hnt2
    rw [List.getElem?_map, hi2]
    simp [initSlot, hnt2]
  refine ⟨hinit i l hil hnt, ?_⟩
  obtain ⟨s, chunks, hp, hbuf, _⟩ :=
    run_logic_inv rawInput threads bs f sched stopSet fs0 r hr
  rw [hbuf]
  have hflat := (partitionChunks_spec hp).1
  have hql : ∀ q ∈ chunks.enum, ∀ p ∈ q.2,
      (rawInput.map pyStrip)[p.2]? = some p.1 := by
    intro q hq p hp2
    have hq2 : q.2 ∈ chunks := List.snd_mem_of_mem_enum hq
    have hpD : p ∈ dataPoints s ((rawInput.map pyStrip).drop s) := by
      rw [← hflat]
      exact List.mem_flatten.mpr ⟨q.2, hq2, hp2⟩
    obtain ⟨j, hj1, hj2⟩ := dataPoints_mem s ((rawInput.map pyStrip).drop s) p hpD
    rw [List.getElem?_drop] at hj1
    rw [hj2]
    exact hj1
  exact foldl_runWorker_failure_preserve bs f sched (rawInput.map pyStrip) hf hs
    chunks.enum ⟨(rawInput.map pyStrip).map initSlot, []⟩ hql
    (fun i2 l2 hi2 hnt2 => hinit i2 l2 hi2 hnt2) i l hil hnt

/-- C4 (witness): a mixed two-line input (one bare line, one id-bearing
line) under an HTTP-error run: the bare line's slot is initialized to and
remains exactly the raw line. -/
theorem claim4_witness :
    ((["hello".toList, "1:::Hi".toList].map pyStrip).map initSlot)[0]?
      = some ("hello".toList)
    ∧ (JobResult.mk ["hello".toList, "1:::Hi".toList]
        [["hello".toList, "1:::".toList], ["hello".toList, "1:::Hi".toList]]
        ⟨some ("hello\n1:::Hi\n".toList),
          some ("hello\n1:::Hi\n".toList)⟩).buffer[0]?
      = some ("hello".toList) :=
  claim4_amended ["hello".toList, "1:::Hi".toList] 1 1 (fun _ _ => .httpError)
    (fun _ => none) false ⟨none, none⟩
    ⟨["hello".toList, "1:::Hi".toList],
      [["hello".toList, "1:::".toList], ["hello".toList, "1:::Hi".toList]],
      ⟨some ("hello\n1:::Hi\n".toList), some ("hello\n1:::Hi\n".toList)⟩⟩
    0 ("hello".toList) (by decide) (fun _ _ => rfl) (fun _ => rfl)
    (by decide) (by decide)

/-! # Claim C6 -/

/-- C6 (counterexample).  The claim states that once the Cancellation Flag
is set, no worker thereafter writes a translated (non-placeholder) value
into any index it had not already completed before observing the flag.
Refuted: when the flag is set while batch 0's response is streaming, the
stream loop observes the flag (`base.py` line 143) and breaks, but the
worker then parses the partial content and writes the TRANSLATED value
`"1:::Xin"` into index 0 — an index not completed before the observation,
and a non-placeholder value differing from both the placeholder `"1:::"`
and the original line. -/
theorem claim6_counterexample :
    (runWorker 1 (fun _ => .exn) (some (0, .midStream ("1:::Xin".toList)))
        [("1:::Hello".toList, 0)] ⟨["1:::".toList], []⟩).buffer
      = ["1:::Xin".toList]
    ∧ "1:::Xin".toList ≠ "1:::".toList
    ∧ "1:::Xin".toList ≠ "1:::Hello".toList := by
  refine ⟨by decide, by decide, by decide⟩

/-- C6 (amended).  Once the Cancellation Flag is set, a worker stops at the
next top-of-loop check and writes nothing from that point on: with the flag
set during batch `k` in phase `ph`, every Output Buffer index belonging
only to batches numbered `stopBound k ph` or later (batch `k` itself when
the flag is seen at the top of the loop, batch `k + 1` when it is seen at
the Translation Client entry or mid-stream) retains exactly its prior
value — in particular unstarted batches keep their initialized
placeholders.  The single batch in flight when the flag is set is still
written: with the original batch lines at the client-entry check, or with
reconciliation of the partially streamed content mid-stream (see the
counterexample). -/
theorem claim6_amended (bs : Nat) (f : Nat → ApiOutcome) (k : Nat)
    (ph : CancelPhase) (chunk : List (PyStr × Nat)) (st0 : JobState) (i : Nat)
    (hi : ∀ p ∈ chunk.take (stopBound k ph * bs), p.2 ≠ i) :
    ((runWorker bs f (some (k, ph)) chunk st0).buffer)[i]? = st0.buffer[i]? :=
  runWorkerAux_cancel_frame bs f k ph chunk.length 0 chunk st0 i
    (by simpa using hi)

/-- C6 (witness): a two-batch chunk with the flag set between the top-of-loop
check and the client entry of batch 0: batch 0 is written back as originals,
batch 1 keeps its placeholder. -/
theorem claim6_witness :
    (∀ p ∈ ([("1:::a".toList, 0), ("2:::b".toList, 1)]
        : List (PyStr × Nat)).take (stopBound 0 .beforeCall * 1), p.2 ≠ 1)
    ∧ ((runWorker 1 (fun _ => .exn) (some (0, .beforeCall))
        [("1:::a".toList, 0), ("2:::b".toList, 1)]
        ⟨["1:::".toList, "2:::".toList], []⟩).buffer)[1]?
      = (["1:::".toList, "2:::".toList])[1]? :=
  ⟨by decide,
    claim6_amended 1 (fun _ => .exn) 0 .beforeCall
      [("1:::a".toList, 0), ("2:::b".toList, 1)]
      ⟨["1:::".toList, "2:::".toList], []⟩ 1 (by decide)⟩

end WuWaVH
